import Mathlib

/-!
Verification of the two core solvers of the tscircuit autorouter repository:

* CapacitySegmentToPointSolver  (src/lib/solvers/CapacityMeshSolver/CapacitySegmentToPointSolver.ts)
* CapacityPathingSingleSectionSolver
  (src/lib/solvers/CapacityPathingSectionSolver/CapacityPathingSingleSectionSolver.ts)

The TypeScript code is shallowly embedded: JavaScript numbers are modelled as
rationals, mutable arrays as lists threaded through explicit state, JS Map and
Set as association lists and Finsets, and thrown exceptions as Except values.
Comments on each definition name the source lines it embeds.
-/

/-! ## Data model for the segment-to-point solver -/

/-- A 2d coordinate, as in the segment start and end fields of the source. -/
structure Point where
  x : ℚ
  y : ℚ
deriving DecidableEq

/-- A 3d coordinate: the point stored in an assignment (source lines 8-12). -/
structure Point3 where
  x : ℚ
  y : ℚ
  z : ℚ
deriving DecidableEq

/-- One entry of the assignedPoints array (source lines 8-12). -/
structure AssignedPoint where
  connectionName : String
  point : Point3
deriving DecidableEq

/-- A NodePortSegment together with the optional assignedPoints extension the
solver adds (interface SegmentWithAssignedPoints, source lines 7-12).  The
source field named end is called endPt here because end is a Lean keyword. -/
structure SegmentWithAssignedPoints where
  capacityMeshNodeId : String
  start : Point
  endPt : Point
  availableZ : List ℚ
  connectionNames : List String
  assignedPoints : Option (List AssignedPoint)
deriving DecidableEq

/-- A CapacityMeshNode as used by this solver: identity, center, width,
height (data model section 3 of the spec; type imported from lib/types). -/
structure CapacityMeshNode where
  capacityMeshNodeId : String
  center : Point
  width : ℚ
  height : ℚ
deriving DecidableEq

/-- The mutable state of CapacitySegmentToPointSolver: the two segment
collections (source lines 29-35), the node list backing nodeMap (line 61),
and the solved flag of BaseSolver. -/
structure SolverState where
  unsolvedSegments : List SegmentWithAssignedPoints
  solvedSegments : List SegmentWithAssignedPoints
  nodes : List CapacityMeshNode
  solved : Bool
deriving DecidableEq

/-- The constructor (source lines 43-64): all segments start unassigned. -/
def mkSolver (segments : List SegmentWithAssignedPoints)
    (nodes : List CapacityMeshNode) : SolverState :=
  ⟨segments, [], nodes, false⟩

/-- availableZ[0] (source lines 85 and 119).  Segments carry a non-empty
availableZ list (spec data model), so the default is never reached there. -/
def headZ (seg : SegmentWithAssignedPoints) : ℚ :=
  seg.availableZ.headD 0

/-- The skip test of Phase A (source line 78): assignedPoints exists and
covers every connection name. -/
def segComplete (seg : SegmentWithAssignedPoints) : Bool :=
  match seg.assignedPoints with
  | some pts => pts.length = seg.connectionNames.length
  | none => false

/-- The midpoint assignment of Phase A (source lines 82-86). -/
def midpointOf (seg : SegmentWithAssignedPoints) : Point3 :=
  ⟨(seg.start.x + seg.endPt.x) / 2, (seg.start.y + seg.endPt.y) / 2, headZ seg⟩

/-- The segment value produced by Phase A for a single-connection segment
(source lines 87-89): one assigned point, the midpoint, for connectionNames[0]. -/
def assignedMid (seg : SegmentWithAssignedPoints) : SegmentWithAssignedPoints :=
  let ap : List AssignedPoint := [⟨seg.connectionNames.headD "", midpointOf seg⟩]
  { seg with assignedPoints := some ap }

/-- Phase A (source lines 75-95): walk the snapshot of unsolved segments; for
each fresh single-connection segment assign the midpoint, move the segment
from unsolvedSegments to solvedSegments (splice + push, lines 91-92) and set
updated.  The JS splice removes the slot holding the processed object, which
here is the first occurrence of the processed value. -/
def phaseAGo : List SegmentWithAssignedPoints → SolverState × Bool → SolverState × Bool
  | [], acc => acc
  | seg :: rest, (st, updated) =>
    if segComplete seg then phaseAGo rest (st, updated)
    else if seg.connectionNames.length = 1 then
      phaseAGo rest
        ({ st with
            unsolvedSegments := st.unsolvedSegments.erase seg,
            solvedSegments := st.solvedSegments ++ [assignedMid seg] }, true)
    else phaseAGo rest (st, updated)

/-- The fold of source lines 100-105: start from unsolved[0] and replace the
candidate whenever a strictly smaller connection count is found. -/
def minCandidate : List SegmentWithAssignedPoints → SegmentWithAssignedPoints →
    SegmentWithAssignedPoints
  | [], cand => cand
  | seg :: rest, cand =>
    minCandidate rest
      (if seg.connectionNames.length < cand.connectionNames.length then seg else cand)

/-- The fallback assignment built in Phase B for a candidate (source lines
108-127): connection names sorted alphabetically, point i (0-based) at
fraction (i+1)/(n+1) along the start to end vector, z = availableZ[0]. -/
def fallbackAssigned (cand : SegmentWithAssignedPoints) : SegmentWithAssignedPoints :=
  let sortedConnections := cand.connectionNames.insertionSort (· ≤ ·)
  let dx := cand.endPt.x - cand.start.x
  let dy := cand.endPt.y - cand.start.y
  let n := sortedConnections.length
  let points : List Point3 := (List.range n).map (fun (i : Nat) =>
    ⟨cand.start.x + dx * (((i : ℚ) + 1) / (n + 1)),
     cand.start.y + dy * (((i : ℚ) + 1) / (n + 1)),
     headZ cand⟩)
  let ap : List AssignedPoint :=
    List.zipWith (fun conn pt => ⟨conn, pt⟩) sortedConnections points
  { cand with assignedPoints := some ap }

/-- Phase B (source lines 98-132): pick the unsolved segment with the fewest
connections (ties to the first found), assign evenly spaced points to the
alphabetically sorted connection names, and move exactly that segment from
unsolvedSegments to solvedSegments. -/
def phaseB (st : SolverState) (snapshot : List SegmentWithAssignedPoints) : SolverState :=
  match snapshot with
  | [] => st
  | first :: _ =>
    let candidate := minCandidate snapshot first
    { st with
        unsolvedSegments := st.unsolvedSegments.erase candidate,
        solvedSegments := st.solvedSegments ++ [fallbackAssigned candidate] }

/-- One call of the private _step (source lines 69-138): Phase A over a
snapshot of the unsolved segments, the fallback Phase B when Phase A updated
nothing and unsolved segments remain, then the solved check of line 135. -/
def stepOnce (st : SolverState) : SolverState :=
  let res := phaseAGo st.unsolvedSegments (st, false)
  let st2 :=
    if res.2 = false ∧ 0 < st.unsolvedSegments.length then phaseB res.1 st.unsolvedSegments
    else res.1
  if st2.unsolvedSegments.length = 0 then { st2 with solved := true } else st2

/-- Modelled from the spec: BaseSolver.step (section 4.1) performs one unit of
work and is a no-op once a terminal state is reached; the iteration cap is
enforced by the driving loop, outside the contract.  BaseSolver itself is not
under src/.  This solver never fails, so only the solved flag guards. -/
def step (st : SolverState) : SolverState :=
  if st.solved then st else stepOnce st

/-- Error kinds of the port-point query: the precondition throw of source
lines 144-147, and the TypeError a missing nodeMap entry would raise at
source line 157. -/
inductive PortPointsError where
  | notSolved
  | missingNode
deriving DecidableEq

/-- One flattened port point: the spread of an assigned point plus its
connection name (source lines 162-167). -/
structure PortPoint where
  x : ℚ
  y : ℚ
  z : ℚ
  connectionName : String
deriving DecidableEq

/-- A NodeWithPortPoints result record (source lines 153-160). -/
structure NodeWithPortPoints where
  capacityMeshNodeId : String
  portPoints : List PortPoint
  center : Point
  width : ℚ
  height : ℚ
deriving DecidableEq

/-- The nodeMap lookup (source lines 61-63): Object.fromEntries keyed by
capacityMeshNodeId, a later node with the same id overwriting an earlier one. -/
def nodeMapLookup (nodes : List CapacityMeshNode) (nodeId : String) :
    Option CapacityMeshNode :=
  nodes.foldl (fun acc nd => if nd.capacityMeshNodeId = nodeId then some nd else acc) none

/-- The flattened (point, connection name) list one segment contributes
(source lines 162-167).  Solver-produced solved segments always carry some
assignedPoints; getD reads that required field. -/
def segPortPoints (seg : SegmentWithAssignedPoints) : List PortPoint :=
  (seg.assignedPoints.getD []).map (fun ap => ⟨ap.point.x, ap.point.y, ap.point.z, ap.connectionName⟩)

/-- Appending the flattened points of a segment to the entry of its owning
node (the portPoints push of source lines 162-167), leaving other entries
unchanged. -/
def updGroup (seg : SegmentWithAssignedPoints) (g : NodeWithPortPoints) :
    NodeWithPortPoints :=
  if g.capacityMeshNodeId = seg.capacityMeshNodeId then
    { g with portPoints := g.portPoints ++ segPortPoints seg }
  else g

/-- Processing one solved segment in getNodesWithPortPoints (source lines
150-168): append to an existing per-node entry, or create the entry from the
nodeMap record (failing like the JS TypeError when the node is absent). -/
def addSegToGroups (nodes : List CapacityMeshNode) (groups : List NodeWithPortPoints)
    (seg : SegmentWithAssignedPoints) : Except PortPointsError (List NodeWithPortPoints) :=
  if groups.any (fun g => g.capacityMeshNodeId = seg.capacityMeshNodeId) then
    Except.ok (groups.map (updGroup seg))
  else
    match nodeMapLookup nodes seg.capacityMeshNodeId with
    | none => Except.error PortPointsError.missingNode
    | some node =>
      Except.ok (groups ++
        [⟨seg.capacityMeshNodeId, segPortPoints seg, node.center, node.width, node.height⟩])

/-- getNodesWithPortPoints (source lines 143-170): throws before solved, then
groups the assigned points of the solved segments by owning mesh node,
preserving Map insertion order. -/
def getNodesWithPortPoints (st : SolverState) :
    Except PortPointsError (List NodeWithPortPoints) :=
  if st.solved = false then Except.error PortPointsError.notSolved
  else st.solvedSegments.foldlM (addSegToGroups st.nodes) []

/-! ## Data model for the single-section solver -/

/-- Node identities are strings (CapacityMeshNodeId in lib/types). -/
abbrev NodeId := String

/-- A CapacityMeshEdge: an unordered pair of node identities (spec data
model; the source destructures edge.nodeIds as a two-element array). -/
structure CapacityMeshEdge where
  nodeIds : NodeId × NodeId
deriving DecidableEq

/-- The nodeIds array of an edge, as a list. -/
def edgeNodeIdList (e : CapacityMeshEdge) : List NodeId :=
  [e.nodeIds.1, e.nodeIds.2]

/-- Modelled from the spec: getNodeEdgeMap (imported at source line 8, not
under src/) maps each node id to its incident edges; source lines 83-86 then
flatMap those edges to the neighbor ids different from the node.  Inlining
the map, the neighbors of a node are read off the incident edges directly. -/
def neighborsOf (edges : List CapacityMeshEdge) (nodeId : NodeId) : List NodeId :=
  (edges.filter (fun e => decide (nodeId ∈ edgeNodeIdList e))).flatMap
    (fun e => (edgeNodeIdList e).filter (fun i => decide (i ≠ nodeId)))

/-- Every node id occurring in the edge list (the finite universe the BFS can
ever visit; used only as a termination measure). -/
def allNodeIds (edges : List CapacityMeshEdge) : Finset NodeId :=
  (edges.flatMap edgeNodeIdList).toFinset

/-- The inner neighbor loop of the BFS (source lines 88-93): in neighbor
order, a node not yet in the visited set is added to it and enqueued with the
given depth.  Returns the grown visited set and the enqueued items in push
order. -/
def enqueueNeighbors (visited : Finset NodeId) (d : Nat) :
    List NodeId → Finset NodeId × List (NodeId × Nat)
  | [] => (visited, [])
  | n :: ns =>
    if n ∈ visited then enqueueNeighbors visited d ns
    else
      let r := enqueueNeighbors (insert n visited) d ns
      (r.1, (n, d) :: r.2)

/-- The BFS while loop of computeSectionNodesTerminalsAndEdges (source lines
77-94).  The source queue with its advancing head pointer is modelled by the
list of entries not yet processed.  An entry at depth at least the radius is
popped without expansion (line 81); otherwise its unvisited neighbors are
marked and appended at depth + 1. -/
def bfsLoop (edges : List CapacityMeshEdge) (r : Nat) :
    List (NodeId × Nat) → Finset NodeId → Finset NodeId
  | [], visited => visited
  | (nodeId, depth) :: rest, visited =>
    if r ≤ depth then bfsLoop edges r rest visited
    else
      bfsLoop edges r
        (rest ++ (enqueueNeighbors visited (depth + 1) (neighborsOf edges nodeId)).2)
        (enqueueNeighbors visited (depth + 1) (neighborsOf edges nodeId)).1
termination_by pending visited => 2 * ((allNodeIds edges) \ visited).card + pending.length
decreasing_by
· simp only [List.length_cons]
  omega
· have key : ∀ (ns : List NodeId) (visited : Finset NodeId) (d : Nat),
      (∀ n ∈ ns, n ∈ allNodeIds edges) →
      ((allNodeIds edges) \ (enqueueNeighbors visited d ns).1).card
          + (enqueueNeighbors visited d ns).2.length
        ≤ ((allNodeIds edges) \ visited).card := by
    intro ns
    induction ns with
    | nil => intro visited _ _; simp [enqueueNeighbors]
    | cons n ns ih =>
      intro visited d h
      by_cases hn : n ∈ visited
      · simp only [enqueueNeighbors, if_pos hn]
        exact ih visited d (fun m hm => h m (List.mem_cons_of_mem _ hm))
      · simp only [enqueueNeighbors, if_neg hn, List.length_cons]
        have h1 := ih (insert n visited) d (fun m hm => h m (List.mem_cons_of_mem _ hm))
        have h2 : (allNodeIds edges) \ insert n visited
            = ((allNodeIds edges) \ visited).erase n := Finset.sdiff_insert _ _ _
        have h3 : n ∈ (allNodeIds edges) \ visited :=
          Finset.mem_sdiff.mpr ⟨h n (List.mem_cons_self n ns), hn⟩
        have h4 := Finset.card_erase_add_one h3
        rw [h2] at h1
        omega
  have hsub : ∀ n ∈ neighborsOf edges nodeId, n ∈ allNodeIds edges := by
    intro n hn
    simp only [neighborsOf, List.mem_flatMap, List.mem_filter] at hn
    obtain ⟨e, ⟨he, _⟩, hne, _⟩ := hn
    simp only [allNodeIds, List.mem_toFinset, List.mem_flatMap]
    exact ⟨e, he, hne⟩
  have hk := key (neighborsOf edges nodeId) visited (depth + 1) hsub
  have hmono : ((allNodeIds edges) \ (enqueueNeighbors visited (depth + 1)
      (neighborsOf edges nodeId)).1).card ≤ ((allNodeIds edges) \ visited).card := by
    omega
  simp only [List.length_append, List.length_cons]
  omega

/-- The section node id set (source lines 70-94): the center node is placed in
the set and on the queue at depth 0, then the bounded BFS runs to completion. -/
def computeSectionNodeIds (edges : List CapacityMeshEdge) (centerNodeId : NodeId)
    (r : Nat) : Finset NodeId :=
  bfsLoop edges r [(centerNodeId, 0)] {centerNodeId}

/-- The section edge filter (source lines 101-104): mesh edges both of whose
endpoint ids are in the section node id set. -/
def computeSectionEdges (edges : List CapacityMeshEdge) (s : Finset NodeId) :
    List CapacityMeshEdge :=
  edges.filter (fun e => decide (e.nodeIds.1 ∈ s) && decide (e.nodeIds.2 ∈ s))

/-- The connection field of a ConnectionPathWithNodes: only the name is read
here (source line 133; the full type lives outside src/). -/
structure ConnectionInfo where
  name : String
deriving DecidableEq

/-- A ConnectionPathWithNodes: a named connection and its optional global
path of mesh nodes (the source checks conn.path for absence at line 109). -/
structure ConnectionPathWithNodes where
  connection : ConnectionInfo
  path : Option (List CapacityMeshNode)
deriving DecidableEq

/-- A terminal record (source lines 34-38 and 131-137). -/
structure SectionTerminal where
  connectionName : String
  startNodeId : NodeId
  endNodeId : NodeId
deriving DecidableEq

/-- The forward scan of source lines 115-120: the id of the first path node
inside the section, if any. -/
def firstInSection (s : Finset NodeId) : List CapacityMeshNode → Option NodeId
  | [] => none
  | nd :: rest =>
    if nd.capacityMeshNodeId ∈ s then some nd.capacityMeshNodeId
    else firstInSection s rest

/-- The backward scan of source lines 123-129: the id of the last path node
inside the section, if any (the downward index loop checks the tail of the
list before the head). -/
def lastInSection (s : Finset NodeId) : List CapacityMeshNode → Option NodeId
  | [] => none
  | nd :: rest =>
    match lastInSection s rest with
    | some found => some found
    | none =>
      if nd.capacityMeshNodeId ∈ s then some nd.capacityMeshNodeId else none

/-- The per-connection terminal computation (source lines 108-138).  The
truthiness test of line 131 makes a null result or an empty-string id drop
the terminal. -/
def terminalForConn (s : Finset NodeId) (conn : ConnectionPathWithNodes) :
    Option SectionTerminal :=
  match conn.path with
  | none => none
  | some path =>
    match firstInSection s path, lastInSection s path with
    | some startNodeId, some endNodeId =>
      if startNodeId ≠ "" ∧ endNodeId ≠ "" then
        some ⟨conn.connection.name, startNodeId, endNodeId⟩
      else none
    | _, _ => none

/-- The terminals loop (source lines 107-138): one optional terminal per
connection, in connection order. -/
def computeSectionConnectionTerminals (s : Finset NodeId)
    (conns : List ConnectionPathWithNodes) : List SectionTerminal :=
  conns.filterMap (terminalForConn s)

/-- Modelled from the spec: the Section Sub-Solver interface (section 6):
step(), and readable solved, failed and error fields.  The sub-solver
implementation is outside src/. -/
structure SubSolverState where
  solved : Bool
  failed : Bool
  error : Option String
deriving DecidableEq

/-- The observable state of CapacityPathingSingleSectionSolver during
stepping: its own solved, failed and error fields plus the sub-solver. -/
structure SectionSolverState where
  solved : Bool
  failed : Bool
  error : Option String
  sub : SubSolverState
deriving DecidableEq

/-- One call of step() on the section solver: the BaseSolver terminal-state
guard (modelled from the spec, section 4.1), then _step of source lines
141-152: step the sub-solver once and mirror a terminal state, copying the
error on failure.  The sub-solver transition function is a parameter since
its implementation is external. -/
def sectionStep (subStep : SubSolverState → SubSolverState)
    (s : SectionSolverState) : SectionSolverState :=
  if s.solved || s.failed then s
  else
    let sub := subStep s.sub
    if sub.solved then { s with sub := sub, solved := true }
    else if sub.failed then { s with sub := sub, failed := true, error := sub.error }
    else { s with sub := sub }

/-! ## Specification-side predicates -/

/-- Walks from the center: ReachN edges c k x holds when x is reachable from
c in exactly k adjacency steps.  The hop distance of x is at most r exactly
when ReachN edges c k x holds for some k at most r. -/
inductive ReachN (edges : List CapacityMeshEdge) (c : NodeId) : Nat → NodeId → Prop
  | zero : ReachN edges c 0 c
  | succ {k : Nat} {x y : NodeId} :
      ReachN edges c k x → y ∈ neighborsOf edges x → ReachN edges c (k + 1) y

/-- The BFS loop invariant.  pending is the unprocessed tail of the queue,
visited the section node id set built so far. -/
structure BfsInv (edges : List CapacityMeshEdge) (c : NodeId) (r : Nat)
    (pending : List (NodeId × Nat)) (visited : Finset NodeId) : Prop where
  center : c ∈ visited
  mono : (pending.map Prod.snd).Pairwise (· ≤ ·)
  window : ∀ p ∈ pending, ∀ q ∈ pending, p.2 ≤ q.2 + 1
  bound : ∀ p ∈ pending, p.2 ≤ r
  reach : ∀ p ∈ pending, ReachN edges c p.2 p.1
  lb : ∀ p ∈ pending, ∀ k, ReachN edges c k p.1 → p.2 ≤ k
  inVis : ∀ p ∈ pending, p.1 ∈ visited
  sound : ∀ x ∈ visited, ∃ k, k ≤ r ∧ ReachN edges c k x
  expanded : ∀ x ∈ visited,
    (∃ d, (x, d) ∈ pending) ∨ (∀ y ∈ neighborsOf edges x, y ∈ visited) ∨
      (∀ k, ReachN edges c k x → r ≤ k)
  covered : ∀ p ∈ pending, ∀ z k, ReachN edges c k z → k < p.2 → z ∈ visited

/-- Grouping invariant for getNodesWithPortPoints: groups is the per-node
accumulator after the processed prefix of the solved segments. -/
def GroupsOk (nodes : List CapacityMeshNode)
    (processed : List SegmentWithAssignedPoints)
    (groups : List NodeWithPortPoints) : Prop :=
  (groups.map (·.capacityMeshNodeId)).Nodup ∧
  (∀ nid, (∃ g ∈ groups, g.capacityMeshNodeId = nid) ↔
      ∃ seg ∈ processed, seg.capacityMeshNodeId = nid) ∧
  (∀ g ∈ groups, ∃ node, nodeMapLookup nodes g.capacityMeshNodeId = some node ∧
      g.center = node.center ∧ g.width = node.width ∧ g.height = node.height) ∧
  (∀ g ∈ groups, g.portPoints =
      ((processed.filter (fun s => s.capacityMeshNodeId = g.capacityMeshNodeId)).map
        segPortPoints).flatten)

/-! ## Concrete instances used by the witness theorems -/

/-- A single-connection segment from (0,0) to (2,4). -/
def exSegMid : SegmentWithAssignedPoints :=
  ⟨"n1", ⟨0, 0⟩, ⟨2, 4⟩, [0], ["A"], none⟩

/-- A three-connection segment from (0,0) to (9,0) with names C, A, B. -/
def exSegCAB : SegmentWithAssignedPoints :=
  ⟨"n1", ⟨0, 0⟩, ⟨9, 0⟩, [5], ["C", "A", "B"], none⟩

/-- A segment with an empty set of connection names. -/
def exSegEmpty : SegmentWithAssignedPoints :=
  ⟨"n2", ⟨0, 0⟩, ⟨1, 1⟩, [0], [], none⟩

/-- A mesh node owning the example segments. -/
def exNode1 : CapacityMeshNode :=
  ⟨"n1", ⟨3, 4⟩, 10, 20⟩

/-- A solved solver state holding one assigned segment on node n1. -/
def exSolvedState : SolverState :=
  ⟨[], [⟨"n1", ⟨0, 0⟩, ⟨2, 4⟩, [0], ["A"], some [⟨"A", ⟨1, 2, 0⟩⟩]⟩],
    [exNode1], true⟩

/-- A mesh node of the example connection path. -/
def mkPathNode (nid : String) : CapacityMeshNode :=
  ⟨nid, ⟨0, 0⟩, 1, 1⟩

/-- The example connection path n0, n1, n2, n3 of the spec. -/
def exConn : ConnectionPathWithNodes :=
  ⟨⟨"net1"⟩, some [mkPathNode ("n0"), mkPathNode ("n1"),
    mkPathNode ("n2"), mkPathNode ("n3")]⟩

/-- A connection whose only path node carries the empty identity. -/
def exConnEmptyId : ConnectionPathWithNodes :=
  ⟨⟨"net2"⟩, some [mkPathNode ("")]⟩

/-- A connection with no path field. -/
def exConnNoPath : ConnectionPathWithNodes :=
  ⟨⟨"net3"⟩, none⟩

/-- The example section node id set of the spec. -/
def exTermSection : Finset NodeId :=
  {"n0", "n1", "n2"}

/-- A sub-solver transition that fails with a fixed error. -/
def exSubStepFail : SubSolverState → SubSolverState :=
  fun _ => ⟨false, true, some ("boom")⟩

/-- A fresh section solver state over a fresh sub-solver. -/
def exSectionState : SectionSolverState :=
  ⟨false, false, none, ⟨false, false, none⟩⟩

/-! ## Lemmas about the segment-to-point solver -/

/-- Phase A leaves the accumulator unchanged when no unsolved segment is a
fresh single-connection segment. -/
theorem phaseAGo_noop (rest : List SegmentWithAssignedPoints) (st : SolverState) (u : Bool)
    (h : ∀ seg ∈ rest, seg.connectionNames.length = 1 → segComplete seg = true) :
    phaseAGo rest (st, u) = (st, u) := by
  induction rest with
  | nil => rfl
  | cons t rest ih =>
    cases hc : segComplete t with
    | true =>
      simp only [phaseAGo, hc, if_true]
      exact ih (fun s hs h1 => h s (List.mem_cons_of_mem _ hs) h1)
    | false =>
      have hl : ¬ (t.connectionNames.length = 1) := by
        intro h1
        rw [h t (List.mem_cons_self _ _) h1] at hc
        simp at hc
      simp only [phaseAGo, hc, Bool.false_eq_true, if_false, if_neg hl]
      exact ih (fun s hs h1 => h s (List.mem_cons_of_mem _ hs) h1)

/-- Phase A only appends to solvedSegments and touches neither the node list
nor the solved flag. -/
theorem phaseAGo_shape (rest : List SegmentWithAssignedPoints) (st : SolverState) (u : Bool) :
    (∃ tail, (phaseAGo rest (st, u)).1.solvedSegments = st.solvedSegments ++ tail) ∧
      (phaseAGo rest (st, u)).1.nodes = st.nodes ∧
      (phaseAGo rest (st, u)).1.solved = st.solved := by
  induction rest generalizing st u with
  | nil => exact ⟨⟨[], (List.append_nil _).symm⟩, rfl, rfl⟩
  | cons t rest ih =>
    cases hc : segComplete t with
    | true => simpa only [phaseAGo, hc, if_true] using ih st u
    | false =>
      by_cases hl : t.connectionNames.length = 1
      · simp only [phaseAGo, hc, Bool.false_eq_true, if_false, if_pos hl]
        obtain ⟨⟨tail, htail⟩, hn, hs⟩ := ih
          { st with unsolvedSegments := st.unsolvedSegments.erase t,
                    solvedSegments := st.solvedSegments ++ [assignedMid t] } true
        exact ⟨⟨[assignedMid t] ++ tail, by simpa [List.append_assoc] using htail⟩, hn, hs⟩
      · simp only [phaseAGo, hc, Bool.false_eq_true, if_false, if_neg hl]
        exact ih st u

/-- Phase A never turns the updated flag back off. -/
theorem phaseAGo_true (rest : List SegmentWithAssignedPoints) (st : SolverState) :
    (phaseAGo rest (st, true)).2 = true := by
  induction rest generalizing st with
  | nil => rfl
  | cons t rest ih =>
    cases hc : segComplete t with
    | true => simpa only [phaseAGo, hc, if_true] using ih st
    | false =>
      by_cases hl : t.connectionNames.length = 1
      · simp only [phaseAGo, hc, Bool.false_eq_true, if_false, if_pos hl]
        exact ih _
      · simp only [phaseAGo, hc, Bool.false_eq_true, if_false, if_neg hl]
        exact ih st

/-- When Phase A reports no update it did nothing at all. -/
theorem phaseAGo_false (rest : List SegmentWithAssignedPoints) (st : SolverState) (u : Bool)
    (h : (phaseAGo rest (st, u)).2 = false) :
    (phaseAGo rest (st, u)).1 = st ∧ u = false := by
  induction rest generalizing st u with
  | nil => exact ⟨rfl, h⟩
  | cons t rest ih =>
    cases hc : segComplete t with
    | true =>
      simp only [phaseAGo, hc, if_true] at h ⊢
      exact ih st u h
    | false =>
      by_cases hl : t.connectionNames.length = 1
      · exfalso
        simp only [phaseAGo, hc, Bool.false_eq_true, if_false, if_pos hl] at h
        rw [phaseAGo_true] at h
        simp at h
      · simp only [phaseAGo, hc, Bool.false_eq_true, if_false, if_neg hl] at h ⊢
        exact ih st u h

/-- Count bookkeeping for Phase A: starting from a sub-multiset of the
current unsolved list, every occurrence of a fresh single-connection segment
seg appearing in the remaining snapshot is erased from unsolvedSegments, the
assigned version of seg lands in solvedSegments, and the updated flag is set. -/
theorem phaseAGo_assigns (seg : SegmentWithAssignedPoints)
    (hlen : seg.connectionNames.length = 1) (hfresh : seg.assignedPoints = none) :
    ∀ (rest : List SegmentWithAssignedPoints) (st : SolverState) (u : Bool),
      (∀ x, rest.count x ≤ st.unsolvedSegments.count x) →
      ((phaseAGo rest (st, u)).1.unsolvedSegments.count seg + rest.count seg
          = st.unsolvedSegments.count seg) ∧
      (seg ∈ rest → assignedMid seg ∈ (phaseAGo rest (st, u)).1.solvedSegments) ∧
      (seg ∈ rest → (phaseAGo rest (st, u)).2 = true) := by
  intro rest
  induction rest with
  | nil =>
    intro st u _
    refine ⟨by simp [phaseAGo], ?_, ?_⟩ <;> intro h <;> exact absurd h (List.not_mem_nil _)
  | cons t rest ih =>
    intro st u hcount
    by_cases ht : t = seg
    · subst ht
      have hcomp : segComplete t = false := by simp [segComplete, hfresh]
      have htmem : t ∈ st.unsolvedSegments := by
        have h1 : 1 ≤ (t :: rest).count t := by simp [List.count_cons_self]
        have := hcount t
        exact List.count_pos_iff.mp (by omega)
      simp only [phaseAGo, hcomp, Bool.false_eq_true, if_false, if_pos hlen]
      set st1 : SolverState :=
        { st with unsolvedSegments := st.unsolvedSegments.erase t,
                  solvedSegments := st.solvedSegments ++ [assignedMid t] } with hst1
      have hcount1 : ∀ x, rest.count x ≤ st1.unsolvedSegments.count x := by
        intro x
        by_cases hx : x = t
        · subst hx
          have h2 := hcount x
          have h3 : (x :: rest).count x = rest.count x + 1 := by
            simp [List.count_cons_self]
          have h4 : st1.unsolvedSegments.count x = st.unsolvedSegments.count x - 1 := by
            simp [hst1, List.count_erase_self]
          omega
        · have h2 := hcount x
          have h3 : (t :: rest).count x = rest.count x := by
            simp [List.count_cons_of_ne hx]
          have h4 : st1.unsolvedSegments.count x = st.unsolvedSegments.count x := by
            simp [hst1, List.count_erase_of_ne hx]
          omega
      obtain ⟨hc, _, _⟩ := ih st1 true hcount1
      refine ⟨?_, ?_, ?_⟩
      · have h4 : st1.unsolvedSegments.count t = st.unsolvedSegments.count t - 1 := by
          simp [hst1, List.count_erase_self]
        have h5 : (t :: rest).count t = rest.count t + 1 := by simp [List.count_cons_self]
        have h6 : 1 ≤ st.unsolvedSegments.count t := by
          have := hcount t
          have h7 : 1 ≤ (t :: rest).count t := by omega
          omega
        omega
      · intro _
        obtain ⟨⟨tail, htail⟩, _, _⟩ := phaseAGo_shape rest st1 true
        rw [htail]
        have : assignedMid t ∈ st1.solvedSegments := by simp [hst1]
        exact List.mem_append_left _ this
      · intro _
        exact phaseAGo_true rest st1
    · have hne : seg ≠ t := fun h => ht h.symm
      have hmemiff : seg ∈ t :: rest ↔ seg ∈ rest := by
        constructor
        · intro h
          rcases List.mem_cons.mp h with h | h
          · exact absurd h.symm ht
          · exact h
        · exact fun h => List.mem_cons_of_mem _ h
      have hcrest : (t :: rest).count seg = rest.count seg := by
        simp [List.count_cons_of_ne hne]
      cases hcomp : segComplete t with
      | true =>
        simp only [phaseAGo, hcomp, if_true]
        have hcount2 : ∀ x, rest.count x ≤ st.unsolvedSegments.count x := by
          intro x
          have h2 := hcount x
          have h3 : rest.count x ≤ (t :: rest).count x := by
            by_cases hx : x = t
            · subst hx; simp [List.count_cons_self]
            · simp [List.count_cons_of_ne hx]
          omega
        obtain ⟨hc, hm, hu⟩ := ih st u hcount2
        exact ⟨by omega, fun h => hm (hmemiff.mp h), fun h => hu (hmemiff.mp h)⟩
      | false =>
        by_cases hl : t.connectionNames.length = 1
        · simp only [phaseAGo, hcomp, Bool.false_eq_true, if_false, if_pos hl]
          have htmem : t ∈ st.unsolvedSegments := by
            have h1 : 1 ≤ (t :: rest).count t := by simp [List.count_cons_self]
            have := hcount t
            exact List.count_pos_iff.mp (by omega)
          set st1 : SolverState :=
            { st with unsolvedSegments := st.unsolvedSegments.erase t,
                      solvedSegments := st.solvedSegments ++ [assignedMid t] } with hst1
          have hcount1 : ∀ x, rest.count x ≤ st1.unsolvedSegments.count x := by
            intro x
            by_cases hx : x = t
            · subst hx
              have h2 := hcount x
              have h3 : (x :: rest).count x = rest.count x + 1 := by
                simp [List.count_cons_self]
              have h4 : st1.unsolvedSegments.count x = st.unsolvedSegments.count x - 1 := by
                simp [hst1, List.count_erase_self]
              omega
            · have h2 := hcount x
              have h3 : (t :: rest).count x = rest.count x := by
                simp [List.count_cons_of_ne hx]
              have h4 : st1.unsolvedSegments.count x = st.unsolvedSegments.count x := by
                simp [hst1, List.count_erase_of_ne hx]
              omega
          obtain ⟨hc, hm, hu⟩ := ih st1 true hcount1
          have h4 : st1.unsolvedSegments.count seg = st.unsolvedSegments.count seg := by
            simp [hst1, List.count_erase_of_ne hne]
          exact ⟨by omega, fun h => hm (hmemiff.mp h), fun h => hu (hmemiff.mp h)⟩
        · simp only [phaseAGo, hcomp, Bool.false_eq_true, if_false, if_neg hl]
          have hcount2 : ∀ x, rest.count x ≤ st.unsolvedSegments.count x := by
            intro x
            have h2 := hcount x
            have h3 : rest.count x ≤ (t :: rest).count x := by
              by_cases hx : x = t
              · subst hx; simp [List.count_cons_self]
              · simp [List.count_cons_of_ne hx]
            omega
          obtain ⟨hc, hm, hu⟩ := ih st u hcount2
          exact ⟨by omega, fun h => hm (hmemiff.mp h), fun h => hu (hmemiff.mp h)⟩

/-- Phase A never grows the unsolved list, and any update strictly shrinks it. -/
theorem phaseAGo_length :
    ∀ (rest : List SegmentWithAssignedPoints) (st : SolverState) (u : Bool),
      (∀ x, rest.count x ≤ st.unsolvedSegments.count x) →
      (phaseAGo rest (st, u)).1.unsolvedSegments.length ≤ st.unsolvedSegments.length ∧
      ((phaseAGo rest (st, u)).2 = true → u = true ∨
        (phaseAGo rest (st, u)).1.unsolvedSegments.length < st.unsolvedSegments.length) := by
  intro rest
  induction rest with
  | nil =>
    intro st u _
    exact ⟨le_refl _, fun h => Or.inl h⟩
  | cons t rest ih =>
    intro st u hcount
    have hcount2 : ∀ x, rest.count x ≤ st.unsolvedSegments.count x := by
      intro x
      have h2 := hcount x
      have h3 : rest.count x ≤ (t :: rest).count x := by
        by_cases hx : x = t
        · subst hx; simp [List.count_cons_self]
        · simp [List.count_cons_of_ne hx]
      omega
    cases hcomp : segComplete t with
    | true =>
      simp only [phaseAGo, hcomp, if_true]
      exact ih st u hcount2
    | false =>
      by_cases hl : t.connectionNames.length = 1
      · simp only [phaseAGo, hcomp, Bool.false_eq_true, if_false, if_pos hl]
        have htmem : t ∈ st.unsolvedSegments := by
          have h1 : 1 ≤ (t :: rest).count t := by simp [List.count_cons_self]
          have := hcount t
          exact List.count_pos_iff.mp (by omega)
        set st1 : SolverState :=
          { st with unsolvedSegments := st.unsolvedSegments.erase t,
                    solvedSegments := st.solvedSegments ++ [assignedMid t] } with hst1
        have hlen1 : st1.unsolvedSegments.length = st.unsolvedSegments.length - 1 := by
          simp [hst1, List.length_erase_of_mem htmem]
        have hpos : 1 ≤ st.unsolvedSegments.length := by
          have := List.length_pos_of_mem htmem
          omega
        have hcount1 : ∀ x, rest.count x ≤ st1.unsolvedSegments.count x := by
          intro x
          by_cases hx : x = t
          · subst hx
            have h2 := hcount x
            have h3 : (x :: rest).count x = rest.count x + 1 := by
              simp [List.count_cons_self]
            have h4 : st1.unsolvedSegments.count x = st.unsolvedSegments.count x - 1 := by
              simp [hst1, List.count_erase_self]
            omega
          · have h2 := hcount x
            have h3 : (t :: rest).count x = rest.count x := by
              simp [List.count_cons_of_ne hx]
            have h4 : st1.unsolvedSegments.count x = st.unsolvedSegments.count x := by
              simp [hst1, List.count_erase_of_ne hx]
            omega
        obtain ⟨hle, _⟩ := ih st1 true hcount1
        exact ⟨by omega, fun _ => Or.inr (by omega)⟩
      · simp only [phaseAGo, hcomp, Bool.false_eq_true, if_false, if_neg hl]
        exact ih st u hcount2

/-- The fold of Phase B returns a segment whose connection count is minimal
among the start candidate and the list. -/
theorem minCandidate_min :
    ∀ (l : List SegmentWithAssignedPoints) (c : SegmentWithAssignedPoints),
      (minCandidate l c).connectionNames.length ≤ c.connectionNames.length ∧
      ∀ s ∈ l, (minCandidate l c).connectionNames.length ≤ s.connectionNames.length := by
  intro l
  induction l with
  | nil => exact fun c => ⟨le_refl _, fun s hs => absurd hs (List.not_mem_nil _)⟩
  | cons t rest ih =>
    intro c
    simp only [minCandidate]
    by_cases hlt : t.connectionNames.length < c.connectionNames.length
    · rw [if_pos hlt]
      obtain ⟨h1, h2⟩ := ih t
      refine ⟨by omega, ?_⟩
      intro s hs
      rcases List.mem_cons.mp hs with h | h
      · subst h; exact h1
      · exact h2 s h
    · rw [if_neg hlt]
      obtain ⟨h1, h2⟩ := ih c
      refine ⟨h1, ?_⟩
      intro s hs
      rcases List.mem_cons.mp hs with h | h
      · subst h; omega
      · exact h2 s h

/-- The fold of Phase B keeps the first segment attaining the minimum: either
the start candidate survives, or the result splits the list with every
earlier element strictly larger. -/
theorem minCandidate_first :
    ∀ (l : List SegmentWithAssignedPoints) (c : SegmentWithAssignedPoints),
      minCandidate l c = c ∨
      ∃ pre suf, l = pre ++ minCandidate l c :: suf ∧
        (minCandidate l c).connectionNames.length < c.connectionNames.length ∧
        ∀ s ∈ pre, (minCandidate l c).connectionNames.length < s.connectionNames.length := by
  intro l
  induction l with
  | nil => exact fun c => Or.inl rfl
  | cons t rest ih =>
    intro c
    simp only [minCandidate]
    by_cases hlt : t.connectionNames.length < c.connectionNames.length
    · rw [if_pos hlt]
      rcases ih t with h | ⟨pre, suf, hsplit, hlt2, hpre⟩
      · rw [h]
        exact Or.inr ⟨[], rest, rfl, hlt, fun s hs => absurd hs (List.not_mem_nil _)⟩
      · refine Or.inr ⟨t :: pre, suf, by rw [List.cons_append, ← hsplit], by omega, ?_⟩
        intro s hs
        rcases List.mem_cons.mp hs with h | h
        · subst h; exact hlt2
        · exact hpre s h
    · rw [if_neg hlt]
      rcases ih c with h | ⟨pre, suf, hsplit, hlt2, hpre⟩
      · exact Or.inl h
      · refine Or.inr ⟨t :: pre, suf, by rw [List.cons_append, ← hsplit], hlt2, ?_⟩
        intro s hs
        rcases List.mem_cons.mp hs with h | h
        · subst h; omega
        · exact hpre s h

/-- The Phase B candidate is an element of a non-empty snapshot. -/
theorem minCandidate_mem (l : List SegmentWithAssignedPoints)
    (c : SegmentWithAssignedPoints) (hc : c ∈ l) : minCandidate l c ∈ l := by
  rcases minCandidate_first l c with h | ⟨pre, suf, hsplit, _, _⟩
  · rw [h]; exact hc
  · have hmem : minCandidate l c ∈ pre ++ minCandidate l c :: suf :=
      List.mem_append_right _ (List.mem_cons_self _ _)
    rw [← hsplit] at hmem
    exact hmem

/-- Before a terminal state, step runs the private _step. -/
theorem step_eq_stepOnce (st : SolverState) (h0 : st.solved = false) :
    step st = stepOnce st := by
  simp [step, h0]

/-- Once solved, step is a no-op. -/
theorem step_fix (st : SolverState) (h : st.solved = true) : step st = st := by
  simp [step, h]

/-- Once solved, iterating step is a no-op. -/
theorem step_iterate_fix (k : Nat) (st : SolverState) (h : st.solved = true) :
    step^[k] st = st := by
  induction k with
  | zero => rfl
  | succ k ih => rw [Function.iterate_succ_apply, step_fix st h, ih]

/-- When Phase A updated something, the fallback is skipped and the final
solved check only touches the flag. -/
theorem stepOnce_of_updated (st : SolverState)
    (hupd : (phaseAGo st.unsolvedSegments (st, false)).2 = true) :
    (stepOnce st).unsolvedSegments
        = (phaseAGo st.unsolvedSegments (st, false)).1.unsolvedSegments ∧
    (stepOnce st).solvedSegments
        = (phaseAGo st.unsolvedSegments (st, false)).1.solvedSegments ∧
    ((stepOnce st).unsolvedSegments = [] → (stepOnce st).solved = true) := by
  have hcond : ¬ ((phaseAGo st.unsolvedSegments (st, false)).2 = false ∧
      0 < st.unsolvedSegments.length) := by
    intro h
    rw [hupd] at h
    simp at h
  simp only [stepOnce]
  rw [if_neg hcond]
  by_cases hlen : (phaseAGo st.unsolvedSegments (st, false)).1.unsolvedSegments.length = 0
  · rw [if_pos hlen]
    exact ⟨rfl, rfl, fun _ => rfl⟩
  · rw [if_neg hlen]
    refine ⟨rfl, rfl, fun h => ?_⟩
    rw [h] at hlen
    simp at hlen

/-- When Phase A updated nothing and unsolved segments remain, the fallback
runs on the unchanged state and the final solved check only touches the flag. -/
theorem stepOnce_of_fallback (st : SolverState)
    (hupd : (phaseAGo st.unsolvedSegments (st, false)).2 = false)
    (hne : st.unsolvedSegments ≠ []) :
    (stepOnce st).unsolvedSegments = (phaseB st st.unsolvedSegments).unsolvedSegments ∧
    (stepOnce st).solvedSegments = (phaseB st st.unsolvedSegments).solvedSegments ∧
    ((stepOnce st).unsolvedSegments = [] → (stepOnce st).solved = true) := by
  have hid := (phaseAGo_false st.unsolvedSegments st false hupd).1
  have hcond : (phaseAGo st.unsolvedSegments (st, false)).2 = false ∧
      0 < st.unsolvedSegments.length := by
    refine ⟨hupd, ?_⟩
    cases hl : st.unsolvedSegments with
    | nil => exact absurd hl hne
    | cons a l => simp [hl]
  simp only [stepOnce]
  rw [if_pos hcond, hid]
  by_cases hlen : (phaseB st st.unsolvedSegments).unsolvedSegments.length = 0
  · rw [if_pos hlen]
    exact ⟨rfl, rfl, fun _ => rfl⟩
  · rw [if_neg hlen]
    refine ⟨rfl, rfl, fun h => ?_⟩
    rw [h] at hlen
    simp at hlen

/-- A step on an empty unsolved list just sets the solved flag. -/
theorem stepOnce_of_empty (st : SolverState) (hemp : st.unsolvedSegments = []) :
    (stepOnce st).solved = true ∧ (stepOnce st).unsolvedSegments = [] := by
  have hres : phaseAGo st.unsolvedSegments (st, false) = (st, false) := by
    rw [hemp]
    rfl
  have hcond : ¬ ((phaseAGo st.unsolvedSegments (st, false)).2 = false ∧
      0 < st.unsolvedSegments.length) := by
    rw [hemp]
    simp
  simp only [stepOnce]
  rw [if_neg hcond, hres]
  rw [hemp]
  simp

/-- Each step taken from a non-terminal state with unsolved segments left
strictly shrinks the unsolved list. -/
theorem step_progress (st : SolverState) (h0 : st.solved = false)
    (hne : st.unsolvedSegments ≠ []) :
    (step st).unsolvedSegments.length < st.unsolvedSegments.length := by
  rw [step_eq_stepOnce st h0]
  have hcount : ∀ x, st.unsolvedSegments.count x ≤ st.unsolvedSegments.count x :=
    fun x => le_refl _
  cases hupd : (phaseAGo st.unsolvedSegments (st, false)).2 with
  | true =>
    obtain ⟨hu, _, _⟩ := stepOnce_of_updated st hupd
    rw [hu]
    obtain ⟨_, hstrict⟩ := phaseAGo_length st.unsolvedSegments st false hcount
    rcases hstrict hupd with h | h
    · simp at h
    · exact h
  | false =>
    obtain ⟨hu, _, _⟩ := stepOnce_of_fallback st hupd hne
    rw [hu]
    cases hl : st.unsolvedSegments with
    | nil => exact absurd hl hne
    | cons first tail =>
      have hmem0 : minCandidate (first :: tail) first ∈ first :: tail :=
        minCandidate_mem _ _ (List.mem_cons_self _ _)
      show (st.unsolvedSegments.erase (minCandidate (first :: tail) first)).length
          < (first :: tail).length
      rw [hl, List.length_erase_of_mem hmem0]
      simp only [List.length_cons]
      omega

/-- A step from a non-terminal state that empties the unsolved list reports
solved. -/
theorem step_solves (st : SolverState) (h0 : st.solved = false)
    (hres : (step st).unsolvedSegments = []) : (step st).solved = true := by
  rw [step_eq_stepOnce st h0] at hres ⊢
  cases hupd : (phaseAGo st.unsolvedSegments (st, false)).2 with
  | true => exact (stepOnce_of_updated st hupd).2.2 hres
  | false =>
    by_cases hne : st.unsolvedSegments = []
    · exact (stepOnce_of_empty st hne).1
    · exact (stepOnce_of_fallback st hupd hne).2.2 hres

/-- From any non-terminal state the solver reaches solved within
max 1 (number of unsolved segments) steps. -/
theorem solver_terminates (st : SolverState) (h0 : st.solved = false) :
    (step^[max 1 st.unsolvedSegments.length] st).solved = true := by
  generalize hL : st.unsolvedSegments.length = L
  induction L using Nat.strong_induction_on generalizing st with
  | _ L ih =>
    cases L with
    | zero =>
      have hemp : st.unsolvedSegments = [] := List.length_eq_zero.mp hL
      have h1 : max 1 0 = 1 := rfl
      rw [h1, Function.iterate_one]
      rw [step_eq_stepOnce st h0]
      exact (stepOnce_of_empty st hemp).1
    | succ L0 =>
      have hmax : max 1 (L0 + 1) = L0 + 1 := by omega
      rw [hmax, Function.iterate_succ_apply]
      have hne : st.unsolvedSegments ≠ [] := by
        intro h
        rw [h] at hL
        simp at hL
      have hlt : (step st).unsolvedSegments.length < L0 + 1 := by
        rw [← hL]
        exact step_progress st h0 hne
      cases hsolved2 : (step st).solved with
      | true => rw [step_iterate_fix L0 (step st) hsolved2]; exact hsolved2
      | false =>
        cases hlen2 : (step st).unsolvedSegments.length with
        | zero =>
          have := step_solves st h0 (List.length_eq_zero.mp hlen2)
          rw [this] at hsolved2
          simp at hsolved2
        | succ m =>
          have hm : m + 1 ≤ L0 := by omega
          have hfinal := ih (m + 1) (by omega) (step st) hsolved2 hlen2
          have hmax2 : max 1 (m + 1) = m + 1 := by omega
          rw [hmax2] at hfinal
          have hsplit : L0 = (L0 - (m + 1)) + (m + 1) := by omega
          rw [hsplit, Function.iterate_add_apply]
          rw [step_iterate_fix _ _ hfinal]
          exact hfinal

/-! ## Lemmas about the bounded BFS of the section solver -/

/-- The neighbor loop only grows the visited set. -/
theorem enqueueNeighbors_subset :
    ∀ (ns : List NodeId) (visited : Finset NodeId) (d : Nat),
      visited ⊆ (enqueueNeighbors visited d ns).1 := by
  intro ns
  induction ns with
  | nil => exact fun visited d x hx => hx
  | cons n ns ih =>
    intro visited d
    by_cases hn : n ∈ visited
    · simpa only [enqueueNeighbors, if_pos hn] using ih visited d
    · simp only [enqueueNeighbors, if_neg hn]
      intro x hx
      exact ih (insert n visited) d (Finset.mem_insert_of_mem hx)

/-- Membership in the grown visited set: an old member, or a freshly
enqueued node. -/
theorem enqueueNeighbors_mem :
    ∀ (ns : List NodeId) (visited : Finset NodeId) (d : Nat) (z : NodeId),
      z ∈ (enqueueNeighbors visited d ns).1 ↔
        z ∈ visited ∨ (z, d) ∈ (enqueueNeighbors visited d ns).2 := by
  intro ns
  induction ns with
  | nil => intro visited d z; simp [enqueueNeighbors]
  | cons n ns ih =>
    intro visited d z
    by_cases hn : n ∈ visited
    · simp only [enqueueNeighbors, if_pos hn]
      exact ih visited d z
    · simp only [enqueueNeighbors, if_neg hn]
      constructor
      · intro hz
        rcases (ih (insert n visited) d z).mp hz with hz | hz
        · rcases Finset.mem_insert.mp hz with rfl | hz
          · exact Or.inr (List.mem_cons_self _ _)
          · exact Or.inl hz
        · exact Or.inr (List.mem_cons_of_mem _ hz)
      · intro hz
        rcases hz with hz | hz
        · exact (ih (insert n visited) d z).mpr (Or.inl (Finset.mem_insert_of_mem hz))
        · rcases List.mem_cons.mp hz with heq | hz
          · rw [Prod.mk.injEq] at heq
            obtain ⟨rfl, -⟩ := heq
            exact (ih (insert z visited) d z).mpr
              (Or.inl (Finset.mem_insert_self _ _))
          · exact (ih (insert n visited) d z).mpr (Or.inr hz)

/-- Every enqueued item carries the given depth, is a listed neighbor, and
was not previously visited. -/
theorem enqueueNeighbors_snd :
    ∀ (ns : List NodeId) (visited : Finset NodeId) (d : Nat) (p : NodeId × Nat),
      p ∈ (enqueueNeighbors visited d ns).2 →
        p.2 = d ∧ p.1 ∈ ns ∧ p.1 ∉ visited := by
  intro ns
  induction ns with
  | nil => intro visited d p hp; simp [enqueueNeighbors] at hp
  | cons n ns ih =>
    intro visited d p hp
    by_cases hn : n ∈ visited
    · simp only [enqueueNeighbors, if_pos hn] at hp
      obtain ⟨h1, h2, h3⟩ := ih visited d p hp
      exact ⟨h1, List.mem_cons_of_mem _ h2, h3⟩
    · simp only [enqueueNeighbors, if_neg hn] at hp
      rcases List.mem_cons.mp hp with heq | hp2
      · subst heq
        exact ⟨rfl, List.mem_cons_self _ _, hn⟩
      · obtain ⟨h1, h2, h3⟩ := ih (insert n visited) d p hp2
        exact ⟨h1, List.mem_cons_of_mem _ h2,
          fun hv => h3 (Finset.mem_insert_of_mem hv)⟩

/-- After the neighbor loop every listed neighbor is visited. -/
theorem enqueueNeighbors_covers :
    ∀ (ns : List NodeId) (visited : Finset NodeId) (d : Nat) (y : NodeId),
      y ∈ ns → y ∈ (enqueueNeighbors visited d ns).1 := by
  intro ns
  induction ns with
  | nil => intro visited d y hy; cases hy
  | cons n ns ih =>
    intro visited d y hy
    by_cases hn : n ∈ visited
    · simp only [enqueueNeighbors, if_pos hn]
      rcases List.mem_cons.mp hy with rfl | hy2
      · exact enqueueNeighbors_subset ns visited d hn
      · exact ih visited d y hy2
    · simp only [enqueueNeighbors, if_neg hn]
      rcases List.mem_cons.mp hy with rfl | hy2
      · exact enqueueNeighbors_subset ns (insert y visited) d
          (Finset.mem_insert_self _ _)
      · exact ih (insert n visited) d y hy2

/-- A zero-length walk ends at the center. -/
theorem reachN_zero_eq (edges : List CapacityMeshEdge) (c x : NodeId)
    (h : ReachN edges c 0 x) : x = c := by
  cases h
  rfl

/-- Inversion of a walk of positive length. -/
theorem reachN_succ_inv (edges : List CapacityMeshEdge) (c : NodeId) (k : Nat)
    (y : NodeId) (h : ReachN edges c (k + 1) y) :
    ∃ x, ReachN edges c k x ∧ y ∈ neighborsOf edges x := by
  cases h with
  | succ hx hy => exact ⟨_, hx, hy⟩

/-- With the invariant, every node within the depth of the queue head has
been visited. -/
theorem bfsInv_head_covered (edges : List CapacityMeshEdge) (c : NodeId) (r : Nat)
    (x : NodeId) (d : Nat) (rest : List (NodeId × Nat)) (V : Finset NodeId)
    (inv : BfsInv edges c r ((x, d) :: rest) V) :
    ∀ z k, ReachN edges c k z → k ≤ d → z ∈ V := by
  intro z k hz hk
  rcases Nat.lt_or_ge k d with hlt | hge
  · exact inv.covered (x, d) (List.mem_cons_self _ _) z k hz hlt
  · have hkd : k = d := by omega
    subst hkd
    cases hke : k with
    | zero =>
      rw [hke] at hz
      rw [reachN_zero_eq edges c z hz]
      exact inv.center
    | succ k0 =>
      rw [hke] at hz
      obtain ⟨w, hw, hnb⟩ := reachN_succ_inv edges c k0 z hz
      have hwV : w ∈ V :=
        inv.covered (x, k) (List.mem_cons_self _ _) w k0 hw (by omega)
      rcases inv.expanded w hwV with ⟨e, he⟩ | h | h
      · exfalso
        have hle : e ≤ k0 := inv.lb (w, e) he k0 hw
        rcases List.mem_cons.mp he with heq | he2
        · rw [Prod.mk.injEq] at heq
          obtain ⟨-, he3⟩ := heq
          omega
        · have hmono := inv.mono
          simp only [List.map_cons, List.pairwise_cons] at hmono
          have : k ≤ e := hmono.1 e (List.mem_map_of_mem Prod.snd he2)
          omega
      · exact h z hnb
      · exfalso
        have hb : k ≤ r := inv.bound (x, k) (List.mem_cons_self _ _)
        have := h k0 hw
        omega

/-- Popping an entry at depth at least the radius preserves the invariant. -/
theorem bfsInv_skip (edges : List CapacityMeshEdge) (c : NodeId) (r : Nat)
    (x : NodeId) (d : Nat) (rest : List (NodeId × Nat)) (V : Finset NodeId)
    (inv : BfsInv edges c r ((x, d) :: rest) V) (hd : r ≤ d) :
    BfsInv edges c r rest V := by
  refine ⟨inv.center, ?_, ?_, ?_, ?_, ?_, ?_, inv.sound, ?_, ?_⟩
  · have hmono := inv.mono
    simp only [List.map_cons, List.pairwise_cons] at hmono
    exact hmono.2
  · exact fun p hp q hq =>
      inv.window p (List.mem_cons_of_mem _ hp) q (List.mem_cons_of_mem _ hq)
  · exact fun p hp => inv.bound p (List.mem_cons_of_mem _ hp)
  · exact fun p hp => inv.reach p (List.mem_cons_of_mem _ hp)
  · exact fun p hp => inv.lb p (List.mem_cons_of_mem _ hp)
  · exact fun p hp => inv.inVis p (List.mem_cons_of_mem _ hp)
  · intro z hz
    rcases inv.expanded z hz with ⟨e, he⟩ | h | h
    · rcases List.mem_cons.mp he with heq | he2
      · rw [Prod.mk.injEq] at heq
        obtain ⟨rfl, rfl⟩ := heq
        refine Or.inr (Or.inr ?_)
        intro k hk
        have := inv.lb (z, e) (List.mem_cons_self _ _) k hk
        omega
      · exact Or.inl ⟨e, he2⟩
    · exact Or.inr (Or.inl h)
    · exact Or.inr (Or.inr h)
  · exact fun p hp z k hz hk =>
      inv.covered p (List.mem_cons_of_mem _ hp) z k hz hk

/-- Expanding an entry below the radius preserves the invariant: the fresh
neighbors join the visited set at depth one more than the popped entry and
are appended to the queue. -/
theorem bfsInv_expand (edges : List CapacityMeshEdge) (c : NodeId) (r : Nat)
    (x : NodeId) (d : Nat) (rest : List (NodeId × Nat)) (V : Finset NodeId)
    (inv : BfsInv edges c r ((x, d) :: rest) V) (hd : d < r) :
    BfsInv edges c r
      (rest ++ (enqueueNeighbors V (d + 1) (neighborsOf edges x)).2)
      (enqueueNeighbors V (d + 1) (neighborsOf edges x)).1 := by
  set ns := neighborsOf edges x with hns
  set V1 := (enqueueNeighbors V (d + 1) ns).1 with hV1
  set items := (enqueueNeighbors V (d + 1) ns).2 with hitems
  have hsub : V ⊆ V1 := enqueueNeighbors_subset ns V (d + 1)
  have hcovn : ∀ y ∈ ns, y ∈ V1 := fun y hy => enqueueNeighbors_covers ns V (d + 1) y hy
  have hmemV1 : ∀ z, z ∈ V1 ↔ z ∈ V ∨ (z, d + 1) ∈ items :=
    fun z => enqueueNeighbors_mem ns V (d + 1) z
  have hsnd : ∀ p ∈ items, p.2 = d + 1 ∧ p.1 ∈ ns ∧ p.1 ∉ V :=
    fun p hp => enqueueNeighbors_snd ns V (d + 1) p hp
  have hreachx : ReachN edges c d x := inv.reach (x, d) (List.mem_cons_self _ _)
  have hheadcov : ∀ z k, ReachN edges c k z → k ≤ d → z ∈ V :=
    bfsInv_head_covered edges c r x d rest V inv
  have hmonohead : ∀ q ∈ rest, d ≤ q.2 := by
    intro q hq
    have hmono := inv.mono
    simp only [List.map_cons, List.pairwise_cons] at hmono
    exact hmono.1 q.2 (List.mem_map_of_mem Prod.snd hq)
  have hwindowhead : ∀ q ∈ rest, q.2 ≤ d + 1 := fun q hq =>
    inv.window q (List.mem_cons_of_mem _ hq) (x, d) (List.mem_cons_self _ _)
  have hreachitems : ∀ p ∈ items, ReachN edges c (d + 1) p.1 := by
    intro p hp
    exact ReachN.succ hreachx (hsnd p hp).2.1
  have hlbitems : ∀ p ∈ items, ∀ k, ReachN edges c k p.1 → d + 1 ≤ k := by
    intro p hp k hk
    by_contra hlt
    have hk2 : k ≤ d := by omega
    exact (hsnd p hp).2.2 (hheadcov p.1 k hk hk2)
  refine ⟨hsub inv.center, ?_, ?_, ?_, ?_, ?_, ?_, ?_, ?_, ?_⟩
  · rw [List.map_append, List.pairwise_append]
    refine ⟨?_, ?_, ?_⟩
    · have hmono := inv.mono
      simp only [List.map_cons, List.pairwise_cons] at hmono
      exact hmono.2
    · refine List.pairwise_of_forall_mem_list ?_
      intro a ha b hb
      obtain ⟨p, hp, hpa⟩ := List.mem_map.mp ha
      obtain ⟨q, hq, hqb⟩ := List.mem_map.mp hb
      have h1 := (hsnd p hp).1
      have h2 := (hsnd q hq).1
      omega
    · intro a ha b hb
      obtain ⟨p, hp, hpa⟩ := List.mem_map.mp ha
      obtain ⟨q, hq, hqb⟩ := List.mem_map.mp hb
      have h1 := hwindowhead p hp
      have h2 := (hsnd q hq).1
      omega
  · intro p hp q hq
    rcases List.mem_append.mp hp with hp1 | hp1 <;>
      rcases List.mem_append.mp hq with hq1 | hq1
    · exact inv.window p (List.mem_cons_of_mem _ hp1) q (List.mem_cons_of_mem _ hq1)
    · have h1 := hwindowhead p hp1
      have h2 := (hsnd q hq1).1
      omega
    · have h1 := (hsnd p hp1).1
      have h2 := hmonohead q hq1
      omega
    · have h1 := (hsnd p hp1).1
      have h2 := (hsnd q hq1).1
      omega
  · intro p hp
    rcases List.mem_append.mp hp with hp1 | hp1
    · exact inv.bound p (List.mem_cons_of_mem _ hp1)
    · have h1 := (hsnd p hp1).1
      omega
  · intro p hp
    rcases List.mem_append.mp hp with hp1 | hp1
    · exact inv.reach p (List.mem_cons_of_mem _ hp1)
    · have h1 := (hsnd p hp1).1
      have := hreachitems p hp1
      rw [h1]
      exact this
  · intro p hp
    rcases List.mem_append.mp hp with hp1 | hp1
    · exact inv.lb p (List.mem_cons_of_mem _ hp1)
    · intro k hk
      have h1 := (hsnd p hp1).1
      have := hlbitems p hp1 k hk
      omega
  · intro p hp
    rcases List.mem_append.mp hp with hp1 | hp1
    · exact hsub (inv.inVis p (List.mem_cons_of_mem _ hp1))
    · have h1 := (hsnd p hp1).1
      refine (hmemV1 p.1).mpr (Or.inr ?_)
      have hpeta : (p.1, d + 1) = p := by
        rw [← h1]
      rw [hpeta]
      exact hp1
  · intro z hz
    rcases (hmemV1 z).mp hz with hz1 | hz1
    · obtain ⟨k, hk, hkz⟩ := inv.sound z hz1
      exact ⟨k, hk, hkz⟩
    · refine ⟨d + 1, by omega, ?_⟩
      have := hreachitems (z, d + 1) hz1
      exact this
  · intro z hz
    rcases (hmemV1 z).mp hz with hz1 | hz1
    · rcases inv.expanded z hz1 with ⟨e, he⟩ | h | h
      · rcases List.mem_cons.mp he with heq | he2
        · rw [Prod.mk.injEq] at heq
          obtain ⟨rfl, -⟩ := heq
          exact Or.inr (Or.inl (fun y hy => hcovn y hy))
        · exact Or.inl ⟨e, List.mem_append_left _ he2⟩
      · exact Or.inr (Or.inl (fun y hy => hsub (h y hy)))
      · exact Or.inr (Or.inr h)
    · exact Or.inl ⟨d + 1, List.mem_append_right _ hz1⟩
  · intro p hp z k hz hk
    rcases List.mem_append.mp hp with hp1 | hp1
    · exact hsub (inv.covered p (List.mem_cons_of_mem _ hp1) z k hz hk)
    · have h1 := (hsnd p hp1).1
      have hk2 : k ≤ d := by omega
      exact hsub (hheadcov z k hz hk2)

/-- The initial BFS state satisfies the invariant. -/
theorem bfsInv_init (edges : List CapacityMeshEdge) (c : NodeId) (r : Nat) :
    BfsInv edges c r [(c, 0)] {c} := by
  refine ⟨Finset.mem_singleton_self c, ?_, ?_, ?_, ?_, ?_, ?_, ?_, ?_, ?_⟩
  · simp
  · intro p hp q hq
    rw [List.mem_singleton] at hp hq
    subst hp
    subst hq
    omega
  · intro p hp
    rw [List.mem_singleton] at hp
    subst hp
    omega
  · intro p hp
    rw [List.mem_singleton] at hp
    subst hp
    exact ReachN.zero
  · intro p hp k _
    rw [List.mem_singleton] at hp
    subst hp
    omega
  · intro p hp
    rw [List.mem_singleton] at hp
    subst hp
    exact Finset.mem_singleton_self c
  · intro z hz
    rw [Finset.mem_singleton] at hz
    subst hz
    exact ⟨0, Nat.zero_le _, ReachN.zero⟩
  · intro z hz
    rw [Finset.mem_singleton] at hz
    subst hz
    exact Or.inl ⟨0, List.mem_singleton_self _⟩
  · intro p hp z k _ hk
    rw [List.mem_singleton] at hp
    subst hp
    omega

/-- Running the BFS loop from an invariant state returns a superset of the
visited set satisfying the empty-queue invariant. -/
theorem bfsLoop_inv (edges : List CapacityMeshEdge) (c : NodeId) (r : Nat) :
    ∀ (pending : List (NodeId × Nat)) (V : Finset NodeId),
      BfsInv edges c r pending V →
      V ⊆ bfsLoop edges r pending V ∧
        BfsInv edges c r [] (bfsLoop edges r pending V) := by
  intro pending V
  induction pending, V using bfsLoop.induct edges r with
  | case1 V =>
    intro inv
    rw [bfsLoop]
    exact ⟨fun x hx => hx, inv⟩
  | case2 nodeId depth rest V hd ih =>
    intro inv
    rw [bfsLoop, if_pos hd]
    exact ih (bfsInv_skip edges c r nodeId depth rest V inv hd)
  | case3 nodeId depth rest V hd ih =>
    intro inv
    rw [bfsLoop, if_neg hd]
    have hlt : depth < r := by omega
    obtain ⟨hsub2, hfin⟩ :=
      ih (bfsInv_expand edges c r nodeId depth rest V inv hlt)
    refine ⟨?_, hfin⟩
    intro z hz
    exact hsub2 (enqueueNeighbors_subset (neighborsOf edges nodeId) V (depth + 1) hz)

/-- With an empty queue the invariant gives completeness: every node within
the radius is visited. -/
theorem bfsInv_complete (edges : List CapacityMeshEdge) (c : NodeId) (r : Nat)
    (V : Finset NodeId) (inv : BfsInv edges c r [] V) :
    ∀ k x, ReachN edges c k x → k ≤ r → x ∈ V := by
  intro k
  induction k with
  | zero =>
    intro x hx _
    rw [reachN_zero_eq edges c x hx]
    exact inv.center
  | succ k ih =>
    intro y hy hk
    obtain ⟨x, hx, hnb⟩ := reachN_succ_inv edges c k y hy
    have hxV : x ∈ V := ih x hx (by omega)
    rcases inv.expanded x hxV with ⟨e, he⟩ | h | h
    · exact absurd he (List.not_mem_nil _)
    · exact h y hnb
    · exfalso
      have := h k hx
      omega

/-- The section node id set is exactly the set of nodes whose hop distance
from the center over the mesh edge adjacency is at most the radius. -/
theorem mem_computeSectionNodeIds (edges : List CapacityMeshEdge) (c : NodeId)
    (r : Nat) (x : NodeId) :
    x ∈ computeSectionNodeIds edges c r ↔ ∃ k, k ≤ r ∧ ReachN edges c k x := by
  obtain ⟨hsub, hfin⟩ := bfsLoop_inv edges c r [(c, 0)] {c} (bfsInv_init edges c r)
  constructor
  · intro hx
    exact hfin.sound x hx
  · rintro ⟨k, hk, hreach⟩
    exact bfsInv_complete edges c r _ hfin k x hreach hk

/-! ## Lemmas about terminal trimming -/

/-- The forward scan over a concatenation tries the left part first. -/
theorem firstInSection_append (s : Finset NodeId) :
    ∀ (a b : List CapacityMeshNode),
      firstInSection s (a ++ b) =
        match firstInSection s a with
        | some v => some v
        | none => firstInSection s b := by
  intro a
  induction a with
  | nil => intro b; rfl
  | cons nd rest ih =>
    intro b
    by_cases hmem : nd.capacityMeshNodeId ∈ s
    · simp only [List.cons_append, firstInSection, if_pos hmem]
    · simp only [List.cons_append, firstInSection, if_neg hmem]
      exact ih b

/-- The backward scan is the forward scan of the reversed path. -/
theorem lastInSection_eq_reverse (s : Finset NodeId) :
    ∀ (l : List CapacityMeshNode),
      lastInSection s l = firstInSection s l.reverse := by
  intro l
  induction l with
  | nil => rfl
  | cons nd rest ih =>
    rw [List.reverse_cons, firstInSection_append s rest.reverse [nd]]
    simp only [lastInSection, ih]
    cases firstInSection s rest.reverse with
    | some v => rfl
    | none =>
      simp only [firstInSection]

/-- Characterization of the forward scan: it returns the identity of the
first path node inside the section, every earlier node lying outside. -/
theorem firstInSection_eq_some_iff (s : Finset NodeId)
    (path : List CapacityMeshNode) (sId : NodeId) :
    firstInSection s path = some sId ↔
      ∃ pre nd suf, path = pre ++ nd :: suf ∧ nd.capacityMeshNodeId = sId ∧
        nd.capacityMeshNodeId ∈ s ∧ ∀ m ∈ pre, m.capacityMeshNodeId ∉ s := by
  induction path with
  | nil =>
    simp only [firstInSection]
    constructor
    · intro h
      cases h
    · rintro ⟨pre, nd, suf, heq, -, -, -⟩
      exact absurd heq.symm (List.append_ne_nil_of_right_ne_nil pre (List.cons_ne_nil _ _))
  | cons head rest ih =>
    by_cases hmem : head.capacityMeshNodeId ∈ s
    · simp only [firstInSection, if_pos hmem]
      constructor
      · intro h
        have hid : head.capacityMeshNodeId = sId := Option.some.inj h
        exact ⟨[], head, rest, rfl, hid, hmem, fun m hm => absurd hm (List.not_mem_nil _)⟩
      · rintro ⟨pre, nd, suf, heq, hid, hins, hpre⟩
        cases pre with
        | nil =>
          rw [List.nil_append] at heq
          have : head = nd := (List.cons.injEq _ _ _ _ ▸ heq).1
          rw [this, hid]
        | cons p pre2 =>
          rw [List.cons_append] at heq
          have hhp : head = p := (List.cons.injEq _ _ _ _ ▸ heq).1
          exact absurd hmem (by rw [hhp]; exact hpre p (List.mem_cons_self _ _))
    · simp only [firstInSection, if_neg hmem]
      rw [ih]
      constructor
      · rintro ⟨pre, nd, suf, heq, hid, hins, hpre⟩
        refine ⟨head :: pre, nd, suf, by rw [List.cons_append, heq], hid, hins, ?_⟩
        intro m hm
        rcases List.mem_cons.mp hm with rfl | hm2
        · exact hmem
        · exact hpre m hm2
      · rintro ⟨pre, nd, suf, heq, hid, hins, hpre⟩
        cases pre with
        | nil =>
          rw [List.nil_append] at heq
          have hhn : head = nd := (List.cons.injEq _ _ _ _ ▸ heq).1
          exact absurd (by rw [hhn]; exact hins) hmem
        | cons p pre2 =>
          rw [List.cons_append] at heq
          have hrest : rest = pre2 ++ nd :: suf := (List.cons.injEq _ _ _ _ ▸ heq).2
          exact ⟨pre2, nd, suf, hrest, hid, hins,
            fun m hm => hpre m (List.mem_cons_of_mem _ hm)⟩

/-- Characterization of the backward scan: it returns the identity of the
last path node inside the section, every later node lying outside. -/
theorem lastInSection_eq_some_iff (s : Finset NodeId)
    (path : List CapacityMeshNode) (eId : NodeId) :
    lastInSection s path = some eId ↔
      ∃ pre nd suf, path = pre ++ nd :: suf ∧ nd.capacityMeshNodeId = eId ∧
        nd.capacityMeshNodeId ∈ s ∧ ∀ m ∈ suf, m.capacityMeshNodeId ∉ s := by
  rw [lastInSection_eq_reverse, firstInSection_eq_some_iff]
  constructor
  · rintro ⟨pre, nd, suf, heq, hid, hins, hpre⟩
    refine ⟨suf.reverse, nd, pre.reverse, ?_, hid, hins, ?_⟩
    · have h1 : path.reverse.reverse = (pre ++ nd :: suf).reverse := by rw [heq]
      rw [List.reverse_reverse] at h1
      rw [h1, List.reverse_append, List.reverse_cons, List.append_assoc,
        List.singleton_append]
    · intro m hm
      exact hpre m (List.mem_reverse.mp hm)
  · rintro ⟨pre, nd, suf, heq, hid, hins, hsuf⟩
    refine ⟨suf.reverse, nd, pre.reverse, ?_, hid, hins, ?_⟩
    · rw [heq, List.reverse_append, List.reverse_cons, List.append_assoc,
        List.singleton_append]
    · intro m hm
      exact hsuf m (List.mem_reverse.mp hm)

/-- The forward scan returns a member of the section node set. -/
theorem firstInSection_mem_section (s : Finset NodeId)
    (path : List CapacityMeshNode) (sId : NodeId)
    (h : firstInSection s path = some sId) : sId ∈ s := by
  obtain ⟨pre, nd, suf, -, hid, hins, -⟩ := (firstInSection_eq_some_iff s path sId).mp h
  rw [← hid]
  exact hins

/-- The backward scan returns a member of the section node set. -/
theorem lastInSection_mem_section (s : Finset NodeId)
    (path : List CapacityMeshNode) (eId : NodeId)
    (h : lastInSection s path = some eId) : eId ∈ s := by
  obtain ⟨pre, nd, suf, -, hid, hins, -⟩ := (lastInSection_eq_some_iff s path eId).mp h
  rw [← hid]
  exact hins

/-- A path with no node inside the section yields no forward hit. -/
theorem firstInSection_eq_none (s : Finset NodeId) :
    ∀ (path : List CapacityMeshNode),
      (∀ nd ∈ path, nd.capacityMeshNodeId ∉ s) → firstInSection s path = none := by
  intro path
  induction path with
  | nil => intro _; rfl
  | cons nd rest ih =>
    intro h
    simp only [firstInSection, if_neg (h nd (List.mem_cons_self _ _))]
    exact ih (fun m hm => h m (List.mem_cons_of_mem _ hm))

/-! ## Lemmas about grouping port points by node -/

/-- The empty accumulator groups the empty prefix. -/
theorem groupsOk_nil (nodes : List CapacityMeshNode) : GroupsOk nodes [] [] := by
  refine ⟨List.nodup_nil, ?_, ?_, ?_⟩
  · intro nid
    simp
  · intro g hg
    exact absurd hg (List.not_mem_nil _)
  · intro g hg
    exact absurd hg (List.not_mem_nil _)

/-- The updated entry keeps its identity, center, width and height. -/
theorem updGroup_fields (seg : SegmentWithAssignedPoints) (g : NodeWithPortPoints) :
    (updGroup seg g).capacityMeshNodeId = g.capacityMeshNodeId ∧
    (updGroup seg g).center = g.center ∧
    (updGroup seg g).width = g.width ∧
    (updGroup seg g).height = g.height := by
  unfold updGroup
  by_cases hgid : g.capacityMeshNodeId = seg.capacityMeshNodeId
  · rw [if_pos hgid]
    exact ⟨rfl, rfl, rfl, rfl⟩
  · rw [if_neg hgid]
    exact ⟨rfl, rfl, rfl, rfl⟩

/-- Processing one segment keeps the grouping invariant, provided its owning
node can be looked up. -/
theorem addSegToGroups_ok (nodes : List CapacityMeshNode)
    (processed : List SegmentWithAssignedPoints) (groups : List NodeWithPortPoints)
    (seg : SegmentWithAssignedPoints) (hok : GroupsOk nodes processed groups)
    (hsome : (nodeMapLookup nodes seg.capacityMeshNodeId).isSome = true) :
    ∃ groups2, addSegToGroups nodes groups seg = Except.ok groups2 ∧
      GroupsOk nodes (processed ++ [seg]) groups2 := by
  obtain ⟨hnodup, hiff, hlook, hpp⟩ := hok
  by_cases hany : groups.any (fun g => g.capacityMeshNodeId = seg.capacityMeshNodeId)
  · -- existing entry: update it in place
    have hex : ∃ g ∈ groups, g.capacityMeshNodeId = seg.capacityMeshNodeId := by
      simpa using List.any_eq_true.mp hany
    have hstep : addSegToGroups nodes groups seg
        = Except.ok (groups.map (updGroup seg)) := by
      simp only [addSegToGroups, if_pos hany]
    refine ⟨_, hstep, ?_⟩
    have hids : (groups.map (updGroup seg)).map (·.capacityMeshNodeId)
        = groups.map (·.capacityMeshNodeId) := by
      rw [List.map_map]
      exact List.map_congr_left (fun g _ => (updGroup_fields seg g).1)
    refine ⟨by rw [hids]; exact hnodup, ?_, ?_, ?_⟩
    · intro nid
      constructor
      · rintro ⟨g2, hg2, hid2⟩
        obtain ⟨g, hg, hgeq⟩ := List.mem_map.mp hg2
        have hgid : g.capacityMeshNodeId = nid := by
          rw [← hid2, ← hgeq]
          exact ((updGroup_fields seg g).1).symm
        obtain ⟨s, hs, hsid⟩ := (hiff nid).mp ⟨g, hg, hgid⟩
        exact ⟨s, List.mem_append_left _ hs, hsid⟩
      · rintro ⟨s, hs, hsid⟩
        rcases List.mem_append.mp hs with hs1 | hs1
        · obtain ⟨g, hg, hgid⟩ := (hiff nid).mpr ⟨s, hs1, hsid⟩
          refine ⟨updGroup seg g, List.mem_map_of_mem _ hg, ?_⟩
          rw [(updGroup_fields seg g).1]
          exact hgid
        · rw [List.mem_singleton] at hs1
          obtain ⟨g, hg, hgid⟩ := hex
          refine ⟨updGroup seg g, List.mem_map_of_mem _ hg, ?_⟩
          rw [(updGroup_fields seg g).1, hgid, ← hs1]
          exact hsid
    · intro g2 hg2
      obtain ⟨g, hg, hgeq⟩ := List.mem_map.mp hg2
      obtain ⟨node, hn, hc, hw, hh⟩ := hlook g hg
      obtain ⟨hf1, hf2, hf3, hf4⟩ := updGroup_fields seg g
      subst hgeq
      refine ⟨node, ?_, ?_, ?_, ?_⟩
      · rw [hf1]
        exact hn
      · rw [hf2]
        exact hc
      · rw [hf3]
        exact hw
      · rw [hf4]
        exact hh
    · intro g2 hg2
      obtain ⟨g, hg, hgeq⟩ := List.mem_map.mp hg2
      subst hgeq
      rw [(updGroup_fields seg g).1, List.filter_append]
      by_cases hgid : g.capacityMeshNodeId = seg.capacityMeshNodeId
      · have hd : (decide (seg.capacityMeshNodeId = g.capacityMeshNodeId)) = true :=
          decide_eq_true hgid.symm
        have hfseg : List.filter
            (fun s => decide (s.capacityMeshNodeId = g.capacityMeshNodeId)) [seg]
            = [seg] := by
          rw [List.filter_singleton, hd]
          rfl
        rw [hfseg, List.map_append, List.flatten_append]
        simp only [List.map_cons, List.map_nil, List.flatten_cons, List.flatten_nil,
          List.append_nil]
        have hlhs : (updGroup seg g).portPoints = g.portPoints ++ segPortPoints seg := by
          unfold updGroup
          rw [if_pos hgid]
        rw [hlhs, hpp g hg]
      · have hd : (decide (seg.capacityMeshNodeId = g.capacityMeshNodeId)) = false :=
          decide_eq_false (fun h => hgid h.symm)
        have hfseg : List.filter
            (fun s => decide (s.capacityMeshNodeId = g.capacityMeshNodeId)) [seg]
            = [] := by
          rw [List.filter_singleton, hd]
          rfl
        rw [hfseg, List.append_nil]
        have hlhs : updGroup seg g = g := by
          unfold updGroup
          rw [if_neg hgid]
        rw [hlhs]
        exact hpp g hg
  · -- fresh entry: look the node up and append
    have hnone : ∀ g ∈ groups, g.capacityMeshNodeId ≠ seg.capacityMeshNodeId := by
      intro g hg h
      exact hany (List.any_eq_true.mpr ⟨g, hg, decide_eq_true h⟩)
    obtain ⟨node, hnode⟩ := Option.isSome_iff_exists.mp hsome
    have hstep : addSegToGroups nodes groups seg = Except.ok (groups ++
        [⟨seg.capacityMeshNodeId, segPortPoints seg, node.center, node.width,
          node.height⟩]) := by
      simp only [addSegToGroups, if_neg hany, hnode]
    refine ⟨_, hstep, ?_⟩
    refine ⟨?_, ?_, ?_, ?_⟩
    · rw [List.map_append, List.nodup_append]
      refine ⟨hnodup, List.nodup_singleton _, ?_⟩
      intro a ha hb
      rw [List.map_singleton, List.mem_singleton] at hb
      obtain ⟨g, hg, hgid⟩ := List.mem_map.mp ha
      exact hnone g hg (by rw [hgid, hb])
    · intro nid
      constructor
      · rintro ⟨g2, hg2, hid2⟩
        rcases List.mem_append.mp hg2 with hg1 | hg1
        · obtain ⟨s, hs, hsid⟩ := (hiff nid).mp ⟨g2, hg1, hid2⟩
          exact ⟨s, List.mem_append_left _ hs, hsid⟩
        · rw [List.mem_singleton] at hg1
          subst hg1
          exact ⟨seg, List.mem_append_right _ (List.mem_singleton_self _), hid2⟩
      · rintro ⟨s, hs, hsid⟩
        rcases List.mem_append.mp hs with hs1 | hs1
        · obtain ⟨g, hg, hgid⟩ := (hiff nid).mpr ⟨s, hs1, hsid⟩
          exact ⟨g, List.mem_append_left _ hg, hgid⟩
        · rw [List.mem_singleton] at hs1
          subst hs1
          exact ⟨_, List.mem_append_right _ (List.mem_singleton_self _), hsid⟩
    · intro g2 hg2
      rcases List.mem_append.mp hg2 with hg1 | hg1
      · exact hlook g2 hg1
      · rw [List.mem_singleton] at hg1
        subst hg1
        exact ⟨node, hnode, rfl, rfl, rfl⟩
    · intro g2 hg2
      rcases List.mem_append.mp hg2 with hg1 | hg1
      · rw [List.filter_append]
        have hd : (decide (seg.capacityMeshNodeId = g2.capacityMeshNodeId)) = false :=
          decide_eq_false (fun h => hnone g2 hg1 h.symm)
        have hfseg : List.filter
            (fun s => decide (s.capacityMeshNodeId = g2.capacityMeshNodeId)) [seg]
            = [] := by
          rw [List.filter_singleton, hd]
          rfl
        rw [hfseg, List.append_nil]
        exact hpp g2 hg1
      · rw [List.mem_singleton] at hg1
        subst hg1
        show segPortPoints seg = _
        rw [List.filter_append]
        have hfproc : List.filter
            (fun s => decide (s.capacityMeshNodeId = seg.capacityMeshNodeId)) processed
            = [] := by
          rw [List.filter_eq_nil_iff]
          intro s hs
          simp only [decide_eq_true_eq]
          intro hsid
          obtain ⟨g, hg, hgid⟩ := (hiff seg.capacityMeshNodeId).mpr ⟨s, hs, hsid⟩
          exact hnone g hg hgid
        have hfseg : List.filter
            (fun s => decide (s.capacityMeshNodeId = seg.capacityMeshNodeId)) [seg]
            = [seg] := by
          rw [List.filter_singleton, decide_eq_true rfl]
          rfl
        rw [hfproc, hfseg, List.nil_append]
        simp only [List.map_cons, List.map_nil, List.flatten_cons, List.flatten_nil,
          List.append_nil]

/-- Folding over a list of segments whose owners are all present yields the
grouped result. -/
theorem foldGroups_ok (nodes : List CapacityMeshNode) :
    ∀ (segs processed : List SegmentWithAssignedPoints)
      (groups : List NodeWithPortPoints),
      GroupsOk nodes processed groups →
      (∀ seg ∈ segs, (nodeMapLookup nodes seg.capacityMeshNodeId).isSome = true) →
      ∃ groups2, List.foldlM (addSegToGroups nodes) groups segs = Except.ok groups2 ∧
        GroupsOk nodes (processed ++ segs) groups2 := by
  intro segs
  induction segs with
  | nil =>
    intro processed groups hok _
    exact ⟨groups, rfl, by simpa using hok⟩
  | cons seg segs ih =>
    intro processed groups hok hsome
    obtain ⟨g1, hg1, hok1⟩ := addSegToGroups_ok nodes processed groups seg hok
      (hsome seg (List.mem_cons_self _ _))
    obtain ⟨g2, hg2, hok2⟩ := ih (processed ++ [seg]) g1 hok1
      (fun s hs => hsome s (List.mem_cons_of_mem _ hs))
    refine ⟨g2, ?_, ?_⟩
    · rw [List.foldlM_cons, hg1]
      simpa using hg2
    · have heq : (processed ++ [seg]) ++ segs = processed ++ seg :: segs := by
        rw [List.append_assoc, List.singleton_append]
      rw [heq] at hok2
      exact hok2

/-! ## The claims -/

/-- C2: every unassigned segment with exactly one connection name is, in one
step call, assigned the exact midpoint of its start and end at z equal to its
first available layer, and moved out of the unassigned set; all such segments
found in the same step are handled, since the theorem quantifies over every
one of them. -/
theorem claim_C2 (st : SolverState) (seg : SegmentWithAssignedPoints) (cname : String)
    (hsolved : st.solved = false)
    (hmem : seg ∈ st.unsolvedSegments)
    (hnames : seg.connectionNames = [cname])
    (hfresh : seg.assignedPoints = none) :
    ({ seg with assignedPoints := some [⟨cname, ⟨(seg.start.x + seg.endPt.x) / 2,
        (seg.start.y + seg.endPt.y) / 2, seg.availableZ.headD 0⟩⟩] }
      : SegmentWithAssignedPoints) ∈ (step st).solvedSegments ∧
    seg ∉ (step st).unsolvedSegments := by
  have hlen : seg.connectionNames.length = 1 := by rw [hnames]; rfl
  have hcount : ∀ x, st.unsolvedSegments.count x ≤ st.unsolvedSegments.count x :=
    fun x => le_refl _
  obtain ⟨hc, hm, hu⟩ :=
    phaseAGo_assigns seg hlen hfresh st.unsolvedSegments st false hcount
  have hupd : (phaseAGo st.unsolvedSegments (st, false)).2 = true := hu hmem
  obtain ⟨hu1, hs1, -⟩ := stepOnce_of_updated st hupd
  rw [step_eq_stepOnce st hsolved]
  constructor
  · rw [hs1]
    have hAV : assignedMid seg
        = ({ seg with assignedPoints := some [⟨cname, ⟨(seg.start.x + seg.endPt.x) / 2,
            (seg.start.y + seg.endPt.y) / 2, seg.availableZ.headD 0⟩⟩] }
          : SegmentWithAssignedPoints) := by
      simp [assignedMid, midpointOf, headZ, hnames]
    rw [← hAV]
    exact hm hmem
  · rw [hu1]
    have hzero :
        (phaseAGo st.unsolvedSegments (st, false)).1.unsolvedSegments.count seg = 0 := by
      omega
    exact List.count_eq_zero.mp hzero

/-- Witness for C2 at a concrete single-connection segment: the midpoint of
(0,0) and (2,4) is (1,2) at layer 0. -/
theorem claim_C2_witness :
    ({ exSegMid with assignedPoints := some [⟨"A", ⟨1, 2, 0⟩⟩] }
      : SegmentWithAssignedPoints) ∈ (step (mkSolver [exSegMid] [])).solvedSegments ∧
    exSegMid ∉ (step (mkSolver [exSegMid] [])).unsolvedSegments := by
  have h := claim_C2 (mkSolver [exSegMid] []) exSegMid "A" rfl
    (List.mem_cons_self _ _) rfl rfl
  have hrec : ({ exSegMid with assignedPoints := some [⟨"A",
      ⟨(exSegMid.start.x + exSegMid.endPt.x) / 2, (exSegMid.start.y + exSegMid.endPt.y) / 2,
        exSegMid.availableZ.headD 0⟩⟩] } : SegmentWithAssignedPoints)
      = ({ exSegMid with assignedPoints := some [⟨"A", ⟨1, 2, 0⟩⟩] }
        : SegmentWithAssignedPoints) := by
    norm_num [exSegMid]
  exact ⟨hrec ▸ h.1, h.2⟩

/-- C3, corrected on the empty collection: with zero input segments the
engine is still unsolved after zero steps, though the claim allows at most
(number of segments) = 0 steps to reach solved. -/
theorem claim_C3_counterexample :
    (step^[([] : List SegmentWithAssignedPoints).length] (mkSolver [] [])).solved
      = false := rfl

/-- C3 as amended: every step taken before solved with at least one
unassigned segment strictly decreases the unassigned count, and the engine
reaches solved within max 1 (number of segments) steps. -/
theorem claim_C3 :
    (∀ st : SolverState, st.solved = false → st.unsolvedSegments ≠ [] →
      (step st).unsolvedSegments.length < st.unsolvedSegments.length) ∧
    (∀ (segments : List SegmentWithAssignedPoints) (nodes : List CapacityMeshNode),
      (step^[max 1 segments.length] (mkSolver segments nodes)).solved = true) := by
  refine ⟨step_progress, ?_⟩
  intro segments nodes
  exact solver_terminates (mkSolver segments nodes) rfl

/-- Witness for C3 at concrete inputs: one step shrinks a one-segment
solver, and a one-segment solver is solved after max 1 1 = 1 step. -/
theorem claim_C3_witness :
    (step (mkSolver [exSegCAB] [])).unsolvedSegments.length
        < (mkSolver [exSegCAB] []).unsolvedSegments.length ∧
    (step^[max 1 [exSegMid].length] (mkSolver [exSegMid] [])).solved = true :=
  ⟨claim_C3.1 (mkSolver [exSegCAB] []) rfl (List.cons_ne_nil _ _),
    claim_C3.2 [exSegMid] []⟩


/-- C10: a segment with no connection names is never handled by Phase A; in a
step where no single-connection segment exists, Phase B picks a candidate
that also has no connection names, moves it to the assigned set with an empty
assigned-points list, the unassigned count still strictly decreases, and the
solver still terminates solved. -/
theorem claim_C10 (st : SolverState) (seg : SegmentWithAssignedPoints)
    (hsolved : st.solved = false)
    (hmem : seg ∈ st.unsolvedSegments)
    (hempty : seg.connectionNames = [])
    (hnone1 : ∀ s ∈ st.unsolvedSegments, s.connectionNames.length ≠ 1) :
    ∃ cand, cand ∈ st.unsolvedSegments ∧ cand.connectionNames = [] ∧
      (step st).solvedSegments
          = st.solvedSegments ++ [{ cand with assignedPoints := some [] }] ∧
      (step st).unsolvedSegments = st.unsolvedSegments.erase cand ∧
      (step st).unsolvedSegments.length + 1 = st.unsolvedSegments.length ∧
      (step^[max 1 st.unsolvedSegments.length] st).solved = true := by
  have hne : st.unsolvedSegments ≠ [] := by
    intro h
    rw [h] at hmem
    exact absurd hmem (List.not_mem_nil _)
  have hnoop : phaseAGo st.unsolvedSegments (st, false) = (st, false) :=
    phaseAGo_noop st.unsolvedSegments st false
      (fun s hs h1 => absurd h1 (hnone1 s hs))
  have hupd : (phaseAGo st.unsolvedSegments (st, false)).2 = false := by
    rw [hnoop]
  obtain ⟨hu1, hs1, -⟩ := stepOnce_of_fallback st hupd hne
  rw [step_eq_stepOnce st hsolved]
  rcases List.exists_cons_of_ne_nil hne with ⟨first, tail, hl⟩
  have hcmem : minCandidate (first :: tail) first ∈ st.unsolvedSegments := by
    rw [hl]
    exact minCandidate_mem _ _ (List.mem_cons_self _ _)
  have hclen : (minCandidate (first :: tail) first).connectionNames.length
      ≤ seg.connectionNames.length := by
    refine (minCandidate_min (first :: tail) first).2 seg ?_
    rw [← hl]
    exact hmem
  have hcnil : (minCandidate (first :: tail) first).connectionNames = [] := by
    rw [hempty] at hclen
    simp only [List.length_nil, Nat.le_zero] at hclen
    exact List.length_eq_zero.mp hclen
  have hfb : fallbackAssigned (minCandidate (first :: tail) first)
      = { minCandidate (first :: tail) first with assignedPoints := some [] } := by
    simp [fallbackAssigned, hcnil]
  have hBs : (phaseB st st.unsolvedSegments).solvedSegments
      = st.solvedSegments ++ [fallbackAssigned (minCandidate (first :: tail) first)] := by
    conv_lhs => rw [hl]
    rfl
  have hBu : (phaseB st st.unsolvedSegments).unsolvedSegments
      = st.unsolvedSegments.erase (minCandidate (first :: tail) first) := by
    conv_lhs => rw [hl]
    rfl
  refine ⟨minCandidate (first :: tail) first, hcmem, hcnil, ?_, ?_, ?_,
    solver_terminates st hsolved⟩
  · rw [hs1, hBs, hfb]
  · rw [hu1, hBu]
  · rw [hu1, hBu, List.length_erase_of_mem hcmem]
    have := List.length_pos_of_mem hcmem
    omega

/-- Witness for C10: a solver with an empty-name segment and a
three-connection segment makes progress through Phase B. -/
theorem claim_C10_witness :
    ∃ cand, cand ∈ (mkSolver [exSegEmpty, exSegCAB] []).unsolvedSegments ∧
      cand.connectionNames = [] ∧
      (step (mkSolver [exSegEmpty, exSegCAB] [])).solvedSegments
          = (mkSolver [exSegEmpty, exSegCAB] []).solvedSegments
              ++ [{ cand with assignedPoints := some [] }] ∧
      (step (mkSolver [exSegEmpty, exSegCAB] [])).unsolvedSegments
          = (mkSolver [exSegEmpty, exSegCAB] []).unsolvedSegments.erase cand ∧
      (step (mkSolver [exSegEmpty, exSegCAB] [])).unsolvedSegments.length + 1
          = (mkSolver [exSegEmpty, exSegCAB] []).unsolvedSegments.length ∧
      (step^[max 1 (mkSolver [exSegEmpty, exSegCAB] []).unsolvedSegments.length]
          (mkSolver [exSegEmpty, exSegCAB] [])).solved = true :=
  claim_C10 (mkSolver [exSegEmpty, exSegCAB] []) exSegEmpty rfl
    (List.mem_cons_self _ _) rfl (by decide)

set_option maxHeartbeats 1000000 in
/-- The fallback assignment dissected: the connection names sorted into a
sorted permutation, and the point list evenly spaced along the segment. -/
theorem fallbackAssigned_spec (cand : SegmentWithAssignedPoints) :
    ∃ (sorted : List String) (pts : List AssignedPoint),
      List.Perm sorted cand.connectionNames ∧
      List.Sorted (fun a b : String => a ≤ b) sorted ∧
      pts.length = cand.connectionNames.length ∧
      (∀ i, ∀ hi : i < pts.length, ∃ hi2 : i < sorted.length,
        pts[i] = ⟨sorted[i],
          ⟨cand.start.x + (cand.endPt.x - cand.start.x)
              * ((i + 1 : ℚ) / (cand.connectionNames.length + 1)),
           cand.start.y + (cand.endPt.y - cand.start.y)
              * ((i + 1 : ℚ) / (cand.connectionNames.length + 1)),
           cand.availableZ.headD 0⟩⟩) ∧
      fallbackAssigned cand = { cand with assignedPoints := some pts } := by
  have hperm : List.Perm (cand.connectionNames.insertionSort (· ≤ ·))
      cand.connectionNames := List.perm_insertionSort _ _
  have hslen : (cand.connectionNames.insertionSort (· ≤ ·)).length
      = cand.connectionNames.length := hperm.length_eq
  refine ⟨cand.connectionNames.insertionSort (· ≤ ·), _, hperm,
    List.sorted_insertionSort _ _, ?_, ?_, rfl⟩
  · simp [List.length_zipWith, List.length_map, List.length_range, hslen]
  · intro i hi
    have hi2 : i < (cand.connectionNames.insertionSort (· ≤ ·)).length := by
      simp only [List.length_zipWith, List.length_map, List.length_range,
        min_self] at hi
      exact hi
    refine ⟨hi2, ?_⟩
    rw [List.getElem_zipWith, List.getElem_map, List.getElem_range]
    simp only [hslen, headZ]

/-- C1: when the fallback phase resolves a segment, that segment has the
fewest connection names among the unassigned segments (ties to the first
encountered), its names are distributed in sorted order at fractions
(i+1)/(n+1) along the start to end vector at z = availableZ[0], and exactly
that one segment moves to the assigned set. -/
theorem claim_C1 (st : SolverState)
    (hsolved : st.solved = false)
    (hne : st.unsolvedSegments ≠ [])
    (hnoA : ∀ s ∈ st.unsolvedSegments, s.connectionNames.length = 1 →
      segComplete s = true) :
    ∃ (cand : SegmentWithAssignedPoints) (sorted : List String)
      (pts : List AssignedPoint),
      cand ∈ st.unsolvedSegments ∧
      (∀ s ∈ st.unsolvedSegments,
        cand.connectionNames.length ≤ s.connectionNames.length) ∧
      (∃ pre suf, st.unsolvedSegments = pre ++ cand :: suf ∧
        ∀ s ∈ pre, cand.connectionNames.length < s.connectionNames.length) ∧
      List.Perm sorted cand.connectionNames ∧
      List.Sorted (fun a b : String => a ≤ b) sorted ∧
      pts.length = cand.connectionNames.length ∧
      (∀ i, ∀ hi : i < pts.length, ∃ hi2 : i < sorted.length,
        pts[i] = ⟨sorted[i],
          ⟨cand.start.x + (cand.endPt.x - cand.start.x)
              * ((i + 1 : ℚ) / (cand.connectionNames.length + 1)),
           cand.start.y + (cand.endPt.y - cand.start.y)
              * ((i + 1 : ℚ) / (cand.connectionNames.length + 1)),
           cand.availableZ.headD 0⟩⟩) ∧
      (step st).solvedSegments
          = st.solvedSegments ++ [{ cand with assignedPoints := some pts }] ∧
      (step st).unsolvedSegments = st.unsolvedSegments.erase cand := by
  have hnoop : phaseAGo st.unsolvedSegments (st, false) = (st, false) :=
    phaseAGo_noop st.unsolvedSegments st false hnoA
  have hupd : (phaseAGo st.unsolvedSegments (st, false)).2 = false := by
    rw [hnoop]
  obtain ⟨hu1, hs1, -⟩ := stepOnce_of_fallback st hupd hne
  rw [step_eq_stepOnce st hsolved]
  rcases List.exists_cons_of_ne_nil hne with ⟨first, tail, hl⟩
  have hcmem : minCandidate (first :: tail) first ∈ st.unsolvedSegments := by
    rw [hl]
    exact minCandidate_mem _ _ (List.mem_cons_self _ _)
  have hmin : ∀ s ∈ st.unsolvedSegments,
      (minCandidate (first :: tail) first).connectionNames.length
        ≤ s.connectionNames.length := by
    intro s hs
    refine (minCandidate_min (first :: tail) first).2 s ?_
    rw [← hl]
    exact hs
  have hsplitc : ∃ pre suf,
      st.unsolvedSegments = pre ++ minCandidate (first :: tail) first :: suf ∧
      ∀ s ∈ pre, (minCandidate (first :: tail) first).connectionNames.length
        < s.connectionNames.length := by
    rcases minCandidate_first (first :: tail) first with hfe | ⟨pre, suf, hsplit, -, hpre⟩
    · refine ⟨[], tail, ?_, fun s hs => absurd hs (List.not_mem_nil _)⟩
      rw [hl, hfe]
      rfl
    · refine ⟨pre, suf, ?_, hpre⟩
      rw [hl]
      exact hsplit
  obtain ⟨sorted, pts, hperm, hsorted, hlen, hpoints, hfb⟩ :=
    fallbackAssigned_spec (minCandidate (first :: tail) first)
  have hBs : (phaseB st st.unsolvedSegments).solvedSegments
      = st.solvedSegments ++ [fallbackAssigned (minCandidate (first :: tail) first)] := by
    conv_lhs => rw [hl]
    rfl
  have hBu : (phaseB st st.unsolvedSegments).unsolvedSegments
      = st.unsolvedSegments.erase (minCandidate (first :: tail) first) := by
    conv_lhs => rw [hl]
    rfl
  refine ⟨minCandidate (first :: tail) first, sorted, pts, hcmem, hmin, hsplitc,
    hperm, hsorted, hlen, hpoints, ?_, ?_⟩
  · rw [hs1, hBs, hfb]
  · rw [hu1, hBu]

/-- Witness for C1 at the concrete instance of the spec: names C, A, B on a
segment from (0,0) to (9,0) give A the point at x = 9/4, B at 9/2 and C at
27/4, all at the first available layer. -/
theorem claim_C1_witness :
    ((step (mkSolver [exSegCAB] [])).solvedSegments
        = [{ exSegCAB with assignedPoints := some [⟨"A", ⟨9 / 4, 0, 5⟩⟩,
            ⟨"B", ⟨9 / 2, 0, 5⟩⟩, ⟨"C", ⟨27 / 4, 0, 5⟩⟩] }]) ∧
    (∃ (cand : SegmentWithAssignedPoints) (sorted : List String)
      (pts : List AssignedPoint),
      cand ∈ (mkSolver [exSegCAB] []).unsolvedSegments ∧
      (∀ s ∈ (mkSolver [exSegCAB] []).unsolvedSegments,
        cand.connectionNames.length ≤ s.connectionNames.length) ∧
      (∃ pre suf, (mkSolver [exSegCAB] []).unsolvedSegments = pre ++ cand :: suf ∧
        ∀ s ∈ pre, cand.connectionNames.length < s.connectionNames.length) ∧
      List.Perm sorted cand.connectionNames ∧
      List.Sorted (fun a b : String => a ≤ b) sorted ∧
      pts.length = cand.connectionNames.length ∧
      (∀ i, ∀ hi : i < pts.length, ∃ hi2 : i < sorted.length,
        pts[i] = ⟨sorted[i],
          ⟨cand.start.x + (cand.endPt.x - cand.start.x)
              * ((i + 1 : ℚ) / (cand.connectionNames.length + 1)),
           cand.start.y + (cand.endPt.y - cand.start.y)
              * ((i + 1 : ℚ) / (cand.connectionNames.length + 1)),
           cand.availableZ.headD 0⟩⟩) ∧
      (step (mkSolver [exSegCAB] [])).solvedSegments
          = (mkSolver [exSegCAB] []).solvedSegments
              ++ [{ cand with assignedPoints := some pts }] ∧
      (step (mkSolver [exSegCAB] [])).unsolvedSegments
          = (mkSolver [exSegCAB] []).unsolvedSegments.erase cand) := by
  constructor
  · have h1 : ¬ (['C'] ≤ ['A']) := by decide
    have h2 : ¬ (['C'] ≤ ['B']) := by decide
    norm_num [step, mkSolver, stepOnce, phaseAGo, segComplete, phaseB, minCandidate,
      fallbackAssigned, headZ, exSegCAB, List.insertionSort, List.orderedInsert,
      List.range, List.range.loop, h1, h2]
  · exact claim_C1 (mkSolver [exSegCAB] []) rfl (List.cons_ne_nil _ _) (by decide)

/-- C4: the section node id set computed by the bounded BFS is exactly the
set of nodes whose hop distance from the focus node over the mesh edge
adjacency is at most the radius; in particular the focus node (distance 0)
is always inside, and no farther node is. -/
theorem claim_C4 (edges : List CapacityMeshEdge) (centerNodeId : NodeId)
    (r : Nat) (x : NodeId) :
    x ∈ computeSectionNodeIds edges centerNodeId r ↔
      ∃ k, k ≤ r ∧ ReachN edges centerNodeId k x :=
  mem_computeSectionNodeIds edges centerNodeId r x

/-- C6: the section edge list is exactly the mesh edges both of whose
endpoints are in the section node set. -/
theorem claim_C6 (edges : List CapacityMeshEdge) (centerNodeId : NodeId)
    (r : Nat) (e : CapacityMeshEdge) :
    e ∈ computeSectionEdges edges (computeSectionNodeIds edges centerNodeId r) ↔
      e ∈ edges ∧ e.nodeIds.1 ∈ computeSectionNodeIds edges centerNodeId r ∧
        e.nodeIds.2 ∈ computeSectionNodeIds edges centerNodeId r := by
  simp [computeSectionEdges, List.mem_filter, and_assoc]

/-- C5 as amended: the forward scan returns the first in-section path node
and the backward scan the last one; when both exist and neither identity is
the empty string, exactly one terminal with those endpoints is emitted, and
both endpoints are members of the section node set; a connection with no
path node inside the section yields no terminal.  (The counterexample shows
the unamended claim fails when an identity is the empty string.) -/
theorem claim_C5 (s : Finset NodeId) (conn : ConnectionPathWithNodes)
    (path : List CapacityMeshNode) (hpath : conn.path = some path) :
    (∀ sId eId, firstInSection s path = some sId → lastInSection s path = some eId →
      sId ≠ "" → eId ≠ "" →
      terminalForConn s conn = some ⟨conn.connection.name, sId, eId⟩ ∧
        sId ∈ s ∧ eId ∈ s) ∧
    ((∀ nd ∈ path, nd.capacityMeshNodeId ∉ s) → terminalForConn s conn = none) ∧
    (∀ sId, firstInSection s path = some sId ↔
      ∃ pre nd suf, path = pre ++ nd :: suf ∧ nd.capacityMeshNodeId = sId ∧
        nd.capacityMeshNodeId ∈ s ∧ ∀ m ∈ pre, m.capacityMeshNodeId ∉ s) ∧
    (∀ eId, lastInSection s path = some eId ↔
      ∃ pre nd suf, path = pre ++ nd :: suf ∧ nd.capacityMeshNodeId = eId ∧
        nd.capacityMeshNodeId ∈ s ∧ ∀ m ∈ suf, m.capacityMeshNodeId ∉ s) := by
  refine ⟨?_, ?_, fun sId => firstInSection_eq_some_iff s path sId,
    fun eId => lastInSection_eq_some_iff s path eId⟩
  · intro sId eId hf hl hs he
    refine ⟨?_, firstInSection_mem_section s path sId hf,
      lastInSection_mem_section s path eId hl⟩
    unfold terminalForConn
    rw [hpath]
    simp only [hf, hl]
    rw [if_pos ⟨hs, he⟩]
  · intro hnone
    have hf := firstInSection_eq_none s path hnone
    have hl : lastInSection s path = none := by
      rw [lastInSection_eq_reverse]
      exact firstInSection_eq_none s path.reverse
        (fun nd hnd => hnone nd (List.mem_reverse.mp hnd))
    unfold terminalForConn
    rw [hpath]
    simp [hf, hl]

/-- C5 as stated is false on the code: over an empty mesh with focus node
identity the empty string, the section node set is exactly the singleton of
the empty string; a connection path consisting of one node whose identity is
the empty string has both a first and a last in-section node, yet the
extractor emits no terminal, because the empty string is falsy in the
truthiness check of source line 131. -/
theorem claim_C5_counterexample :
    firstInSection (computeSectionNodeIds [] "" 3) [mkPathNode ("")] = some ("") ∧
    lastInSection (computeSectionNodeIds [] "" 3) [mkPathNode ("")] = some ("") ∧
    computeSectionConnectionTerminals (computeSectionNodeIds [] "" 3)
      [exConnEmptyId] = [] := by
  have hreach : ∀ k x, ReachN [] "" k x → x = "" := by
    intro k
    induction k with
    | zero => intro x hx; exact reachN_zero_eq [] "" x hx
    | succ k ih =>
      intro x hx
      obtain ⟨w, -, hnb⟩ := reachN_succ_inv [] "" k x hx
      simp [neighborsOf] at hnb
  have hS : computeSectionNodeIds [] "" 3 = {""} := by
    apply Finset.ext
    intro x
    rw [mem_computeSectionNodeIds]
    constructor
    · rintro ⟨k, -, hk⟩
      rw [Finset.mem_singleton]
      exact hreach k x hk
    · intro hx
      rw [Finset.mem_singleton] at hx
      subst hx
      exact ⟨0, by omega, ReachN.zero⟩
  rw [hS]
  refine ⟨by decide, by decide, by decide⟩

/-- Witness for C5 at the example of the spec: path n0, n1, n2, n3 against
the section set containing n0, n1 and n2 yields the terminal (n0, n2). -/
theorem claim_C5_witness :
    terminalForConn exTermSection exConn = some ⟨"net1", "n0", "n2"⟩ ∧
    ("n0" : NodeId) ∈ exTermSection ∧ ("n2" : NodeId) ∈ exTermSection := by
  have h := (claim_C5 exTermSection exConn
      [mkPathNode ("n0"), mkPathNode ("n1"), mkPathNode ("n2"), mkPathNode ("n3")]
      rfl).1 "n0" "n2" (by decide) (by decide) (by decide) (by decide)
  exact h

/-- C9: a terminal is emitted only when both discovered endpoint identities
are truthy: a first or last in-section node with the empty-string identity
suppresses the terminal, and so does an absent path field. -/
theorem claim_C9 (s : Finset NodeId) (conn : ConnectionPathWithNodes) :
    (∀ path, conn.path = some path →
      (firstInSection s path = some ("") ∨ lastInSection s path = some ("")) →
      terminalForConn s conn = none) ∧
    (conn.path = none → terminalForConn s conn = none) := by
  constructor
  · intro path hpath hor
    unfold terminalForConn
    rw [hpath]
    rcases hor with hf | hl
    · cases hlast : lastInSection s path with
      | none => simp [hf, hlast]
      | some e => simp [hf, hlast]
    · cases hfirst : firstInSection s path with
      | none => simp [hfirst, hl]
      | some a => simp [hfirst, hl]
  · intro hnone
    unfold terminalForConn
    rw [hnone]

/-- Witness for C9: a path whose only in-section node has the empty identity
yields no terminal, and a connection without a path yields no terminal. -/
theorem claim_C9_witness :
    terminalForConn {""} exConnEmptyId = none ∧
    terminalForConn {""} exConnNoPath = none :=
  ⟨(claim_C9 {""} exConnEmptyId).1 [mkPathNode ("")] rfl (Or.inl (by decide)),
    (claim_C9 {""} exConnNoPath).2 rfl⟩

/-- C7: one step of the section solver from a non-terminal state steps the
sub-solver exactly once and mirrors its terminal state, copying the error
verbatim on failure, and does nothing else. -/
theorem claim_C7 (subStep : SubSolverState → SubSolverState) (s : SectionSolverState)
    (hsolved : s.solved = false) (hfailed : s.failed = false)
    (hterm : ¬ ((subStep s.sub).solved = true ∧ (subStep s.sub).failed = true)) :
    (sectionStep subStep s).sub = subStep s.sub ∧
    ((subStep s.sub).solved = true →
      sectionStep subStep s = { s with sub := subStep s.sub, solved := true }) ∧
    ((subStep s.sub).failed = true →
      sectionStep subStep s
        = { s with sub := subStep s.sub, failed := true, error := (subStep s.sub).error }) ∧
    ((subStep s.sub).solved = false → (subStep s.sub).failed = false →
      sectionStep subStep s = { s with sub := subStep s.sub }) := by
  have hnguard : ¬ ((s.solved || s.failed) = true) := by
    rw [hsolved, hfailed]
    simp
  have hstep : sectionStep subStep s
      = (if (subStep s.sub).solved = true then { s with sub := subStep s.sub, solved := true }
        else if (subStep s.sub).failed = true then
          { s with sub := subStep s.sub, failed := true, error := (subStep s.sub).error }
        else { s with sub := subStep s.sub }) := by
    simp only [sectionStep]
    rw [if_neg hnguard]
  cases h1 : (subStep s.sub).solved with
  | true =>
    rw [if_pos h1] at hstep
    refine ⟨by rw [hstep], fun _ => hstep, ?_, ?_⟩
    · intro h2
      exact absurd ⟨h1, h2⟩ hterm
    · intro h2 _
      simp at h2
  | false =>
    have hn1 : ¬ ((subStep s.sub).solved = true) := by
      rw [h1]
      simp
    rw [if_neg hn1] at hstep
    cases h2 : (subStep s.sub).failed with
    | true =>
      rw [if_pos h2] at hstep
      refine ⟨by rw [hstep], ?_, fun _ => hstep, ?_⟩
      · intro h3
        simp at h3
      · intro _ h4
        simp at h4
    | false =>
      have hn2 : ¬ ((subStep s.sub).failed = true) := by
        rw [h2]
        simp
      rw [if_neg hn2] at hstep
      refine ⟨by rw [hstep], ?_, ?_, fun _ _ => hstep⟩
      · intro h3
        simp at h3
      · intro h3
        simp at h3

/-- Witness for C7: a failing sub-solver step makes the section solver
failed with the same error string. -/
theorem claim_C7_witness :
    (sectionStep exSubStepFail exSectionState).sub = exSubStepFail exSectionState.sub ∧
    sectionStep exSubStepFail exSectionState
      = { exSectionState with
            sub := exSubStepFail exSectionState.sub,
            failed := true,
            error := (exSubStepFail exSectionState.sub).error } := by
  have h := claim_C7 exSubStepFail exSectionState rfl rfl (by decide)
  exact ⟨h.1, h.2.2.1 rfl⟩

/-- C8: before solved, the port-point query fails with the
precondition-violation error and returns nothing; once solved (with every
owning node present in the node map) it returns one entry per owning mesh
node carrying that node identity, center, width, height, and the flattened
port points of all segments of that node. -/
theorem claim_C8 (st : SolverState) :
    (st.solved = false →
      getNodesWithPortPoints st = Except.error PortPointsError.notSolved) ∧
    (st.solved = true →
      (∀ seg ∈ st.solvedSegments,
        (nodeMapLookup st.nodes seg.capacityMeshNodeId).isSome = true) →
      ∃ l, getNodesWithPortPoints st = Except.ok l ∧
        (l.map (·.capacityMeshNodeId)).Nodup ∧
        (∀ nid, (∃ g ∈ l, g.capacityMeshNodeId = nid) ↔
          ∃ seg ∈ st.solvedSegments, seg.capacityMeshNodeId = nid) ∧
        (∀ g ∈ l, ∃ node, nodeMapLookup st.nodes g.capacityMeshNodeId = some node ∧
          g.center = node.center ∧ g.width = node.width ∧ g.height = node.height) ∧
        (∀ g ∈ l, g.portPoints =
          ((st.solvedSegments.filter
            (fun s2 => s2.capacityMeshNodeId = g.capacityMeshNodeId)).map
              segPortPoints).flatten)) := by
  constructor
  · intro h0
    unfold getNodesWithPortPoints
    rw [if_pos h0]
  · intro h1 hsome
    obtain ⟨l, hl, hok⟩ := foldGroups_ok st.nodes st.solvedSegments [] []
      (groupsOk_nil st.nodes) hsome
    obtain ⟨hnodup, hiff, hlook, hpp⟩ := hok
    refine ⟨l, ?_, hnodup, ?_, hlook, ?_⟩
    · unfold getNodesWithPortPoints
      rw [if_neg (by rw [h1]; simp)]
      exact hl
    · intro nid
      rw [hiff nid]
      rw [List.nil_append]
    · intro g hg
      rw [hpp g hg]
      rw [List.nil_append]

/-- Witness for C8: the query fails on a fresh solver and succeeds on a
concrete solved state. -/
theorem claim_C8_witness :
    (getNodesWithPortPoints (mkSolver [exSegMid] [])
      = Except.error PortPointsError.notSolved) ∧
    (∃ l, getNodesWithPortPoints exSolvedState = Except.ok l ∧
      (l.map (·.capacityMeshNodeId)).Nodup ∧
      (∀ nid, (∃ g ∈ l, g.capacityMeshNodeId = nid) ↔
        ∃ seg ∈ exSolvedState.solvedSegments, seg.capacityMeshNodeId = nid) ∧
      (∀ g ∈ l, ∃ node,
        nodeMapLookup exSolvedState.nodes g.capacityMeshNodeId = some node ∧
        g.center = node.center ∧ g.width = node.width ∧ g.height = node.height) ∧
      (∀ g ∈ l, g.portPoints =
        ((exSolvedState.solvedSegments.filter
          (fun s2 => s2.capacityMeshNodeId = g.capacityMeshNodeId)).map
            segPortPoints).flatten)) :=
  ⟨(claim_C8 (mkSolver [exSegMid] [])).1 rfl,
    (claim_C8 exSolvedState).2 rfl (by decide)⟩
